import Mathlib

/-! Span lifecycle tracker (callbacks/fornax/trace_handler.go) and Qdrant indexer
(components/indexer/qdrant/indexer.go).

The five callbacks of `einoTracer` are embedded as functions that, given the
tracer, the context and the run descriptor, return the context handed back to
the caller together with the sequence of effects the call performs, in program
order.  Goroutines started with `go` are part of that sequence (`Instr.go`).
A small machine executes the caller thread and the goroutines under an
arbitrary schedule; a receive on a channel (`<-stopCh`) can only be executed
once the channel is closed.

External collaborators (the tracing backend, the parser) are oracles: functions
whose results are quantified over in the theorems.
-/

namespace Fornax

/-! ## Data model, callbacks, machine and predicates -/

/-- Tag sets (`spanTags`): key/value pairs. -/
abbrev Tags := List (String × String)

/-- Spans handed out by the backend: either the concrete `*ob.FornaxSpanImpl`
or some other implementation of the span interface. -/
inductive Span where
  | fornax (id : Nat)
  | other (id : Nat)
  deriving DecidableEq, Repr

/-- The fields of `callbacks.RunInfo` that the handler reads (`Type_` is the Go
field `Type`). -/
structure RunInfo where
  Name : String
  Type_ : String
  Component : String
  deriving DecidableEq, Repr

/-- One layer of a `context.Context`: either the value stored under
`traceStreamInputAsyncKey{}` (a channel, identified by a number) or a value
stored by another package (for instance the backend's current span). -/
inductive CtxEntry where
  | streamInputAsync (stopCh : Nat)
  | foreign (key : Nat) (val : Nat)
  deriving DecidableEq, Repr

/-- A context is the list of its layers, newest first. -/
abbrev Ctx := List CtxEntry

/-- The lookup `ctx.Value(traceStreamInputAsyncKey{}).(streamInputAsyncVal)`:
newest layer first. -/
def streamInputAsyncVal : Ctx → Option Nat
  | [] => none
  | .streamInputAsync ch :: _ => some ch
  | .foreign _ _ :: rest => streamInputAsyncVal rest

/-- The call `context.WithValue(ctx, traceStreamInputAsyncKey{}, stopCh)`. -/
def withStreamInputAsync (ctx : Ctx) (stopCh : Nat) : Ctx :=
  .streamInputAsync stopCh :: ctx

abbrev Payload := String

abbrev Stream := List String

/-- The backend capability `ob.FornaxTracer`.  `StartSpan` returns the Go triple
`(span, ctx, err)`; a nil span or a nil error is `none`. -/
structure FornaxTracer where
  StartSpan : Ctx → String → Option Span × Ctx × Option String
  GetSpanFromContext : Ctx → Option Span

/-- The interface `CallbackDataParser`.  A result `none` is a call that panics. -/
structure CallbackDataParser where
  ParseInput : Ctx → RunInfo → Payload → Option Tags
  ParseOutput : Ctx → RunInfo → Payload → Option Tags
  ParseStreamInput : Ctx → RunInfo → Stream → Option Tags
  ParseStreamOutput : Ctx → RunInfo → Stream → Option Tags

/-- Package-level names used by the handler whose declarations are not part of
the sources at hand: the tag keys, the serialised runtime descriptor
(`toJson(getStaticRuntimeTags())`), `itoa` and `getErrorTags`. -/
structure Vocab where
  SpaceID : String
  FornaxSpaceID : String
  Runtime : String
  SpanType : String
  customSpanTagKeyComponent : String
  customSpanTagKeyName : String
  customSpanTagKeyType : String
  runtimeJson : String
  itoa : Int → String
  getErrorTags : Ctx → String → Tags

/-- The receiver `einoTracer`; `identity` is the value of `GetSpaceID()`. -/
structure einoTracer where
  tracer : FornaxTracer
  identity : Int
  parser : Option CallbackDataParser

/-- Modelled from the spec: `spanTags.set` is declared outside the sources at
hand; a later set for the same key overwrites the earlier value, and the
position of a key is stable. -/
def spanTagsSet : Tags → String → String → Tags
  | [], k, v => [(k, v)]
  | (k0, v0) :: rest, k, v =>
    if k0 = k then (k, v) :: rest else (k0, v0) :: spanTagsSet rest k v

/-- The four parser phases. -/
inductive Phase where
  | input | output | streamInput | streamOutput
  deriving DecidableEq, Repr

/-- Which statement of the handler issued a `SetTag`. -/
inductive TagSource where
  | fornaxTags
  | runInfo
  | parsed (p : Phase)
  | errorTags
  deriving DecidableEq, Repr

/-- Atomic effects of the handler. -/
inductive Act where
  | startSpan (ctx : Ctx) (name : String)
  | getSpanFromContext (ctx : Ctx)
  | logWarn
  | parse (p : Phase)
  | setTag (s : Span) (src : TagSource) (t : Tags)
  | makeChan (ch : Nat)
  | wait (ch : Nat)
  | close (ch : Nat)
  | closeStream (p : Phase)
  | recovered
  | finish (s : Span)
  | panicked
  deriving DecidableEq, Repr

/-- An instruction of the calling thread: an atomic effect or a `go` statement
with the body of the goroutine. -/
inductive Instr where
  | act (a : Act)
  | go (body : List Act)
  deriving DecidableEq, Repr

/-- What a callback does: the context it returns (`none` when a panic leaves the
function) and its effects in program order. -/
structure Call where
  ret : Option Ctx
  body : List Instr
  deriving DecidableEq, Repr

/-- The tags of `setFornaxTags`. -/
def setFornaxTags (v : Vocab) (l : einoTracer) : Tags :=
  spanTagsSet (spanTagsSet (spanTagsSet [] v.SpaceID (v.itoa l.identity))
    v.FornaxSpaceID (v.itoa l.identity)) v.Runtime v.runtimeJson

/-- The tags of `setRunInfo`. -/
def setRunInfo (v : Vocab) (info : RunInfo) : Tags :=
  spanTagsSet (spanTagsSet (spanTagsSet (spanTagsSet [] v.SpanType info.Component)
    v.customSpanTagKeyComponent info.Component)
    v.customSpanTagKeyName info.Name)
    v.customSpanTagKeyType info.Type_

/-- Method `einoTracer.OnStart` (trace_handler.go:37-70).  `StartSpan` reassigns
`ctx`, so every later `return ctx` hands back the backend's context. -/
def OnStart (v : Vocab) (l : einoTracer) (ctx : Ctx) (info : Option RunInfo)
    (input : Payload) : Call :=
  match info with
  | none => ⟨some ctx, []⟩
  | some info =>
    let spanName := if info.Name = "" then info.Component else info.Name
    match l.tracer.StartSpan ctx spanName with
    | (_, ctx1, some _) => ⟨some ctx1, [.act (.startSpan ctx spanName), .act .logWarn]⟩
    | (some (.fornax id), ctx1, none) =>
      let si := Span.fornax id
      let pre : List Instr :=
        [.act (.startSpan ctx spanName),
         .act (.setTag si .fornaxTags (setFornaxTags v l)),
         .act (.setTag si .runInfo (setRunInfo v info))]
      match l.parser with
      | none => ⟨some ctx1, pre⟩
      | some p =>
        match p.ParseInput ctx1 info input with
        | some t => ⟨some ctx1, pre ++ [.act (.parse .input), .act (.setTag si (.parsed .input) t)]⟩
        | none => ⟨none, pre ++ [.act (.parse .input), .act .panicked]⟩
    | (_, ctx1, none) => ⟨some ctx1, [.act (.startSpan ctx spanName), .act .logWarn]⟩

/-- The common tail of `OnEnd` and `OnError`: wait on the gate carried by the
context, if any, then finish the span. -/
def waitAndFinish (ctx : Ctx) (span : Span) : List Act :=
  match streamInputAsyncVal ctx with
  | some stopCh => [.wait stopCh, .finish span]
  | none => [.finish span]

/-- Method `einoTracer.OnEnd` (trace_handler.go:72-100).  A panic of `ParseOutput`
is not recovered here and leaves the function. -/
def OnEnd (l : einoTracer) (ctx : Ctx) (info : Option RunInfo) (output : Payload) : Call :=
  match info with
  | none => ⟨some ctx, []⟩
  | some info =>
    match l.tracer.GetSpanFromContext ctx with
    | none => ⟨some ctx, [.act (.getSpanFromContext ctx), .act .logWarn]⟩
    | some (.other _) => ⟨some ctx, [.act (.getSpanFromContext ctx), .act .logWarn]⟩
    | some (.fornax id) =>
      let si := Span.fornax id
      match l.parser with
      | none =>
        ⟨some ctx, .act (.getSpanFromContext ctx) :: (waitAndFinish ctx si).map .act⟩
      | some p =>
        match p.ParseOutput ctx info output with
        | some t =>
          ⟨some ctx, [.act (.getSpanFromContext ctx), .act (.parse .output),
            .act (.setTag si (.parsed .output) t)] ++ (waitAndFinish ctx si).map .act⟩
        | none =>
          ⟨none, [.act (.getSpanFromContext ctx), .act (.parse .output), .act .panicked]⟩

/-- Method `einoTracer.OnError` (trace_handler.go:102-128). -/
def OnError (v : Vocab) (l : einoTracer) (ctx : Ctx) (info : Option RunInfo)
    (err : String) : Call :=
  match info with
  | none => ⟨some ctx, []⟩
  | some _ =>
    match l.tracer.GetSpanFromContext ctx with
    | none => ⟨some ctx, [.act (.getSpanFromContext ctx), .act .logWarn]⟩
    | some (.other _) => ⟨some ctx, [.act (.getSpanFromContext ctx), .act .logWarn]⟩
    | some (.fornax id) =>
      let si := Span.fornax id
      ⟨some ctx, [.act (.getSpanFromContext ctx),
        .act (.setTag si .errorTags (v.getErrorTags ctx err))] ++
        (waitAndFinish ctx si).map .act⟩

/-- The goroutine of `OnStartWithStreamInput`: the parse, the `SetTag` of its
result when it returns, and the deferred function (recover, close the stream,
close the channel). -/
def streamInputTask (p : CallbackDataParser) (ctx : Ctx) (info : RunInfo)
    (input : Stream) (si : Span) (stopCh : Nat) : List Act :=
  match p.ParseStreamInput ctx info input with
  | some t =>
    [.parse .streamInput, .setTag si (.parsed .streamInput) t,
     .closeStream .streamInput, .close stopCh]
  | none =>
    [.parse .streamInput, .recovered, .closeStream .streamInput, .close stopCh]

/-- Method `einoTracer.OnStartWithStreamInput` (trace_handler.go:130-177); the
channel is made and stored before the type assertion and before the parser
test.  `stopCh` is the channel that
`make(streamInputAsyncVal)` returns. -/
def OnStartWithStreamInput (v : Vocab) (l : einoTracer) (ctx : Ctx)
    (info : Option RunInfo) (input : Stream) (stopCh : Nat) : Call :=
  match info with
  | none => ⟨some ctx, []⟩
  | some info =>
    let spanName := if info.Name = "" then info.Component else info.Name
    match l.tracer.StartSpan ctx spanName with
    | (_, ctx1, some _) => ⟨some ctx1, [.act (.startSpan ctx spanName), .act .logWarn]⟩
    | (span, ctx1, none) =>
      let ctx2 := withStreamInputAsync ctx1 stopCh
      match span with
      | some (.fornax id) =>
        let si := Span.fornax id
        let pre : List Instr :=
          [.act (.startSpan ctx spanName), .act (.makeChan stopCh),
           .act (.setTag si .fornaxTags (setFornaxTags v l)),
           .act (.setTag si .runInfo (setRunInfo v info))]
        match l.parser with
        | none => ⟨some ctx2, pre⟩
        | some p => ⟨some ctx2, pre ++ [.go (streamInputTask p ctx2 info input si stopCh)]⟩
      | _ =>
        ⟨some ctx2, [.act (.startSpan ctx spanName), .act (.makeChan stopCh), .act .logWarn]⟩

/-- The goroutine of `OnEndWithStreamOutput`: the parse and `SetTag`, the wait on
the gate, `Finish`; the deferred function recovers and closes the stream. -/
def streamOutputTask (p : CallbackDataParser) (ctx : Ctx) (info : RunInfo)
    (output : Stream) (si : Span) : List Act :=
  match p.ParseStreamOutput ctx info output with
  | some t =>
    [.parse .streamOutput, .setTag si (.parsed .streamOutput) t] ++
      waitAndFinish ctx si ++ [.closeStream .streamOutput]
  | none =>
    [.parse .streamOutput, .recovered, .closeStream .streamOutput]

/-- Method `einoTracer.OnEndWithStreamOutput` (trace_handler.go:179-217). -/
def OnEndWithStreamOutput (l : einoTracer) (ctx : Ctx) (info : Option RunInfo)
    (output : Stream) : Call :=
  match info with
  | none => ⟨some ctx, []⟩
  | some info =>
    match l.tracer.GetSpanFromContext ctx with
    | none => ⟨some ctx, [.act (.getSpanFromContext ctx), .act .logWarn]⟩
    | some (.other _) => ⟨some ctx, [.act (.getSpanFromContext ctx), .act .logWarn]⟩
    | some (.fornax id) =>
      let si := Span.fornax id
      match l.parser with
      | none => ⟨some ctx, [.act (.getSpanFromContext ctx)]⟩
      | some p =>
        ⟨some ctx, [.act (.getSpanFromContext ctx), .go (streamOutputTask p ctx info output si)]⟩

/-- The callbacks that end a run. -/
inductive EndOp where
  | onEnd (output : Payload)
  | onError (err : String)
  | onEndWithStreamOutput (output : Stream)

/-- The call of an ending callback. -/
def endCall (v : Vocab) (l : einoTracer) (ctx : Ctx) (info : Option RunInfo) : EndOp → Call
  | .onEnd output => OnEnd l ctx info output
  | .onError err => OnError v l ctx info err
  | .onEndWithStreamOutput output => OnEndWithStreamOutput l ctx info output

/-- The span name both start callbacks derive from the run descriptor. -/
def derivedSpanName (info : RunInfo) : String :=
  if info.Name = "" then info.Component else info.Name

/-- The caller thread, the goroutines started so far, the closed channels and
the effects executed so far, oldest first. -/
structure Machine where
  main : List Instr
  tasks : List (List Act)
  closed : List Nat
  trace : List Act
  deriving DecidableEq, Repr

/-- The channels closed after executing `a`. -/
def closeEffect (a : Act) (closed : List Nat) : List Nat :=
  match a with
  | .close ch => ch :: closed
  | _ => closed

/-- Whether `a` can be executed: a receive needs its channel closed. -/
def enabled (a : Act) (closed : List Nat) : Bool :=
  match a with
  | .wait ch => decide (ch ∈ closed)
  | _ => true

/-- What is left of a thread after executing `a` in front of `rest`: a panic
that nothing recovers ends the thread. -/
def continueAfter {α : Type} (a : Act) (rest : List α) : List α :=
  match a with
  | .panicked => []
  | _ => rest

/-- One scheduling decision: thread `0` is the caller, thread `j + 1` the
goroutine number `j`.  A thread that is finished or blocked does not move. -/
def step (i : Nat) (m : Machine) : Machine :=
  match i with
  | 0 =>
    match m.main with
    | [] => m
    | .go b :: rest => ⟨rest, m.tasks ++ [b], m.closed, m.trace⟩
    | .act a :: rest =>
      if enabled a m.closed then
        ⟨continueAfter a rest, m.tasks, closeEffect a m.closed, m.trace ++ [a]⟩
      else m
  | j + 1 =>
    match m.tasks[j]? with
    | none => m
    | some [] => m
    | some (a :: rest) =>
      if enabled a m.closed then
        ⟨m.main, m.tasks.set j (continueAfter a rest), closeEffect a m.closed, m.trace ++ [a]⟩
      else m

/-- Run a schedule. -/
def run (sched : List Nat) (m : Machine) : Machine :=
  sched.foldl (fun m i => step i m) m

/-- The machine in which the caller is about to execute `prog`. -/
def initMachine (prog : List Instr) (closed : List Nat) : Machine :=
  ⟨prog, [], closed, []⟩

/-- The `SetTag` of the `ParseStreamInput` result. -/
def isInputTag : Act → Bool
  | .setTag _ (.parsed .streamInput) _ => true
  | _ => false

/-- A `Finish`. -/
def isFinish : Act → Bool
  | .finish _ => true
  | _ => false

/-- Number of `Finish` calls in a trace. -/
def finishCount (tr : List Act) : Nat := tr.countP isFinish

/-- An effect that neither sets input-stream tags nor closes channel `c`. -/
def calmAct (c : Nat) (a : Act) : Bool := !isInputTag a && !decide (a = .close c)

/-- A goroutine body made of calm effects only. -/
def quietA (c : Nat) (t : List Act) : Bool := t.all (calmAct c)

/-- A caller program made of calm effects only, goroutine bodies included. -/
def quiet (c : Nat) : List Instr → Bool
  | [] => true
  | .act a :: r => calmAct c a && quiet c r
  | .go b :: r => quietA c b && quiet c r

/-- After the first close of `c` in the goroutine nothing but calm effects follow. -/
def closerOkA (c : Nat) : List Act → Bool
  | [] => true
  | a :: r => if a = .close c then quietA c r else closerOkA c r

/-- The caller is calm up to its first `go`, whose body may close `c`; what
follows is calm. -/
def mainOk (c : Nat) : List Instr → Bool
  | [] => true
  | .act a :: r => calmAct c a && mainOk c r
  | .go b :: r => closerOkA c b && quiet c r

/-- Every `Finish` of the goroutine comes after a receive on `c`. -/
def finGuardedA (c : Nat) : List Act → Bool
  | [] => true
  | a :: r => if a = .wait c then true else if isFinish a then false else finGuardedA c r

/-- Every `Finish` of the caller, and of the goroutines it starts, comes after
a receive on `c` in the same thread. -/
def finGuarded (c : Nat) : List Instr → Bool
  | [] => true
  | .act a :: r => if a = .wait c then true else if isFinish a then false else finGuarded c r
  | .go b :: r => finGuardedA c b && finGuarded c r

/-- Every close of `c` in the goroutine comes after `e0`. -/
def pendA (e0 : Act) (c : Nat) : List Act → Bool
  | [] => true
  | a :: r => if a = e0 then true else if a = .close c then false else pendA e0 c r

/-- Every close of `c` by the caller or by a goroutine it starts comes after `e0`
in the same thread. -/
def pend (e0 : Act) (c : Nat) : List Instr → Bool
  | [] => true
  | .act a :: r => if a = e0 then true else if a = .close c then false else pend e0 c r
  | .go b :: r => pendA e0 c b && pend e0 c r

/-- No effect satisfying `P` in the goroutine. -/
def absentA (P : Act → Bool) (t : List Act) : Bool := t.all (fun a => !P a)

/-- No effect satisfying `P` in the caller program or in a goroutine it starts. -/
def absent (P : Act → Bool) : List Instr → Bool
  | [] => true
  | .act a :: r => !P a && absent P r
  | .go b :: r => absentA P b && absent P r

/-- Order of a trace with respect to gate `c` and effect `e0`: every `Finish` has
the close of `c` and `e0` before it and no input-stream `SetTag` after it. -/
def Ordered (c : Nat) (e0 : Act) (tr : List Act) : Prop :=
  ∀ pre s post, tr = pre ++ Act.finish s :: post →
    Act.close c ∈ pre ∧ e0 ∈ pre ∧ ∀ a ∈ post, isInputTag a = false

/-- No input-stream `SetTag` after a `Finish`. -/
def NoInputTagAfterFinish (tr : List Act) : Prop :=
  ∀ pre s post, tr = pre ++ Act.finish s :: post → ∀ a ∈ post, isInputTag a = false

/-- No thread holds an effect satisfying `P` and none was executed. -/
def AbsentInv (P : Act → Bool) (m : Machine) : Prop :=
  absent P m.main = true ∧ (∀ t ∈ m.tasks, absentA P t = true) ∧ ∀ a ∈ m.trace, P a = false

/-- The invariant of a run whose gate is channel `c` and whose input-parse
goroutine executes `e0` before it closes `c`. -/
structure GateInv (c : Nat) (e0 : Act) (m : Machine) : Prop where
  closed_trace : c ∈ m.closed → Act.close c ∈ m.trace
  guard : c ∈ m.closed ∨
    (finGuarded c m.main = true ∧ ∀ t ∈ m.tasks, finGuardedA c t = true)
  noFinish : c ∉ m.closed → ∀ a ∈ m.trace, isFinish a = false
  calm : c ∈ m.closed → quiet c m.main = true ∧ ∀ t ∈ m.tasks, quietA c t = true
  closer : c ∉ m.closed →
    (m.tasks = [] ∧ mainOk c m.main = true) ∨
    (quiet c m.main = true ∧ ∃ t0 rest, m.tasks = t0 :: rest ∧ closerOkA c t0 = true ∧
      ∀ t ∈ rest, quietA c t = true)
  pending : e0 ∈ m.trace ∨ (pend e0 c m.main = true ∧ ∀ t ∈ m.tasks, pendA e0 c t = true)
  tagBeforeClose : Act.close c ∈ m.trace → e0 ∈ m.trace
  ordered : Ordered c e0 m.trace
  open_trace : c ∉ m.closed → Act.close c ∉ m.trace
  once : m.trace.count (Act.close c) ≤ 1

/-- What the invariant says about the effect a thread is about to execute. -/
structure HeadFacts (c : Nat) (e0 : Act) (m : Machine) (a : Act) : Prop where
  notFinish : c ∉ m.closed → isFinish a = false
  notTag : c ∈ m.closed → isInputTag a = false
  notClose : c ∈ m.closed → a ≠ .close c
  tagged : a = .close c → a = e0 ∨ e0 ∈ m.trace

/-- What the input-parse goroutine executes right after the parse. -/
def afterParse (p : CallbackDataParser) (ctx : Ctx) (info : RunInfo) (input : Stream)
    (si : Span) : Act :=
  match p.ParseStreamInput ctx info input with
  | some t => .setTag si (.parsed .streamInput) t
  | none => .recovered

/-- Tag keys and helpers for the examples. -/
def exVocab : Vocab :=
  ⟨"space_id", "fornax_space_id", "runtime", "span_type", "component", "name", "type",
    "runtime-json", fun _ => "7", fun _ err => [("error", err)]⟩

/-- The span a backend that stores spans under key `0` finds in a context. -/
def exCurrentSpan : Ctx → Option Span
  | [] => none
  | .foreign 0 id :: _ => some (.fornax id)
  | _ :: rest => exCurrentSpan rest

/-- A backend that always starts a span and stores it in the context. -/
def exBackend : FornaxTracer :=
  ⟨fun ctx _ => (some (.fornax ctx.length), .foreign 0 ctx.length :: ctx, none), exCurrentSpan⟩

/-- A backend whose `StartSpan` fails and hands back a context of its own. -/
def exFailBackend : FornaxTracer :=
  ⟨fun ctx _ => (none, .foreign 1 0 :: ctx, some "unavailable"), exCurrentSpan⟩

/-- A parser that returns one tag per phase. -/
def exParser : CallbackDataParser :=
  ⟨fun _ _ x => some [("input", x)], fun _ _ x => some [("output", x)],
    fun _ _ xs => some [("input", String.join xs)],
    fun _ _ xs => some [("output", String.join xs)]⟩

/-- A parser whose stream operations panic. -/
def exPanicParser : CallbackDataParser :=
  ⟨fun _ _ x => some [("input", x)], fun _ _ x => some [("output", x)],
    fun _ _ _ => none, fun _ _ _ => none⟩

def exTracer : einoTracer := ⟨exBackend, 7, some exParser⟩

def exTracerPanic : einoTracer := ⟨exBackend, 7, some exPanicParser⟩

def exFailTracer : einoTracer := ⟨exFailBackend, 7, some exParser⟩

/-- The run descriptor of the scenario: no logical name. -/
def exInfo : RunInfo := ⟨"", "generate", "ChatModel"⟩

/-- Modelled from the spec: `SetTag` belongs to the backend, outside the sources
at hand; setting a tag set writes each of its entries, a later set for the same
key overwriting the earlier value. -/
def mergeTags (acc t : Tags) : Tags :=
  t.foldl (fun acc kv => spanTagsSet acc kv.1 kv.2) acc

/-- The effect of one trace entry on the tag set of span `s`. -/
def applyTag (s : Span) (acc : Tags) (a : Act) : Tags :=
  match a with
  | .setTag s1 _ t => if s1 = s then mergeTags acc t else acc
  | _ => acc

/-- The tag set of span `s` after the effects of a trace. -/
def spanTagSet (s : Span) (tr : List Act) : Tags :=
  tr.foldl (applyTag s) []

/-- The keys of a tag set. -/
def tagKeys (t : Tags) : List String := t.map Prod.fst

/-- The value a tag set holds for key `k`. -/
def tagValue (k : String) : Tags → Option String
  | [] => none
  | (k0, v0) :: rest => if k0 = k then some v0 else tagValue k rest

/-- The value of the last write to key `k` in the sequence of writes `ws`, and
`init` when `ws` does not write `k`. -/
def lastWriteFrom (k : String) (init : Option String) (ws : Tags) : Option String :=
  ws.foldl (fun acc kv => if kv.1 = k then some kv.2 else acc) init

/-- The value of the last write to key `k` in the sequence of writes `ws`. -/
def lastWrite (k : String) (ws : Tags) : Option String := lastWriteFrom k none ws

/-- No key occurs twice. -/
def keysNodup (t : Tags) : Prop := (tagKeys t).Nodup

/-- A parser whose `ParseOutput` returns a tag under the key of the logical name. -/
def exOverwriteParser : CallbackDataParser :=
  ⟨fun _ _ _ => some [], fun _ _ _ => some [("name", "shadow")],
    fun _ _ _ => some [], fun _ _ _ => some []⟩

/-- A parser whose `ParseOutput` panics. -/
def exPanicOutputParser : CallbackDataParser :=
  ⟨fun _ _ x => some [("input", x)], fun _ _ _ => none,
    fun _ _ _ => some [], fun _ _ _ => some []⟩

def exOverwriteTracer : einoTracer := ⟨exBackend, 7, some exOverwriteParser⟩

def exPanicOutputTracer : einoTracer := ⟨exBackend, 7, some exPanicOutputParser⟩

/-- A run descriptor with a logical name. -/
def exNamedInfo : RunInfo := ⟨"myrun", "generate", "ChatModel"⟩

/-- The tag sets that `OnStart` followed by `OnEnd` hand to `SetTag`, merged in
program order, when the parser calls return. -/
def startEndTags (v : Vocab) (l : einoTracer) (info : RunInfo) (ctx1 : Ctx)
    (input output : Payload) : Tags :=
  match l.parser with
  | none => mergeTags (mergeTags [] (setFornaxTags v l)) (setRunInfo v info)
  | some p =>
    mergeTags (mergeTags (mergeTags (mergeTags [] (setFornaxTags v l)) (setRunInfo v info))
      ((p.ParseInput ctx1 info input).getD [])) ((p.ParseOutput ctx1 info output).getD [])

/-- The keys of the identity/runtime tags and of the run tags. -/
def startKeys (v : Vocab) : List String :=
  [v.SpaceID, v.FornaxSpaceID, v.Runtime, v.SpanType, v.customSpanTagKeyComponent,
   v.customSpanTagKeyName, v.customSpanTagKeyType]

end Fornax

/-! # Qdrant indexer: data model and `Indexer.Store` -/

namespace Qdrant

/-- The fields of `schema.Document` that the indexer reads.  Values of the
metadata map (`interface{}`) are carried as codes. -/
structure Document where
  ID : String
  Content : String
  MetaData : List (String × String)
  deriving DecidableEq, Repr

/-- Payloads (`map[string]interface{}`), as association lists. -/
abbrev Payload := List (String × String)

/-- The result of `qdrant.NewValueMap` (`map[string]*qdrant.Value`). -/
abbrev ValueMap := List (String × String)

/-- A `qdrant.PointStruct`.  Vector components are carried as codes. -/
structure PointStruct where
  Id : String
  Vector : List Int
  Payload : ValueMap
  deriving DecidableEq, Repr

/-- Method `Client.Upsert`: from the state of the store, the collection name and the
batch, to the new state and the error, if any. -/
abbrev UpsertFn (σ : Type) := σ → String → List PointStruct → σ × Option String

/-- Method `Embedder.EmbedStrings`. -/
abbrev EmbedFn := List String → Except String (List (List Int))

/-- What `Store` uses from outside the repository: the conversion `float32(v)` and
the qdrant client's `NewValueMap`, which panics on a value of a type it does not
support (`none`). -/
structure Lib where
  float32 : Int → Int
  NewValueMap : Payload → Option ValueMap

/-- The configuration `IndexerConfig`; a nil client, embedder or payload
function is `none`.  The struct declaration at indexer.go:12-21 lists `Client`,
`Collection`, `Embedding` and `BatchSize` only, while `NewIndexer` (lines 40-41)
and `Store` (line 74) read and write a further field `DocumentToPayload`; the
field is declared here with the type those uses require, without which the
source does not compile. -/
structure IndexerConfig (σ : Type) where
  Client : Option (UpsertFn σ)
  Collection : String
  Embedding : Option EmbedFn
  BatchSize : Int
  DocumentToPayload : Option (Document → Except String Payload)

/-- An `Indexer` as `NewIndexer` returns it: the configuration in which the
missing values have been replaced by their defaults. -/
structure Indexer (σ : Type) where
  Client : UpsertFn σ
  Collection : String
  Embedding : EmbedFn
  BatchSize : Int
  DocumentToPayload : Document → Except String Payload

/-- Writing `payload[k] = v`. -/
def payloadSet : Payload → String → String → Payload
  | [], k, v => [(k, v)]
  | (k0, v0) :: rest, k, v =>
    if k0 = k then (k, v) :: rest else (k0, v0) :: payloadSet rest k v

/-- Function `defaultDocumentToPayload` (indexer.go:46-55). -/
def defaultDocumentToPayload (doc : Document) : Except String Payload :=
  .ok (doc.MetaData.foldl (fun pl kv => payloadSet pl kv.1 kv.2)
    [("id", doc.ID), ("content", doc.Content)])

/-- Function `NewIndexer` (indexer.go:27-44). -/
def NewIndexer {σ : Type} (config : IndexerConfig σ) : Except String (Indexer σ) :=
  match config.Client with
  | none => .error "[NewIndexer] qdrant client not provided"
  | some client =>
    match config.Embedding with
    | none => .error "[NewIndexer] embedding not provided"
    | some embedding =>
      .ok ⟨client,
        if config.Collection = "" then "eino_collection" else config.Collection,
        embedding,
        if config.BatchSize = 0 then 10 else config.BatchSize,
        match config.DocumentToPayload with
        | none => defaultDocumentToPayload
        | some f => f⟩

/-- The slice expression `xs[lo:hi]`. -/
def slice {α : Type} (xs : List α) (lo hi : Nat) : List α := (xs.take hi).drop lo

/-- How the loop that builds the points ends. -/
inductive Built where
  | points (pts : List PointStruct)
  | failed (err : String)
  | panicked
  deriving DecidableEq, Repr

/-- The loop that builds the points (indexer.go:73-87): per document the payload
conversion, whose error ends `Store`, then the vector conversion and
`qdrant.NewValueMap`, whose panic leaves `Store`. -/
def buildPoints {σ : Type} (lib : Lib) (i : Indexer σ) : List Document → List (List Int) →
    Built
  | [], _ => .points []
  | doc :: docs, vectors =>
    match i.DocumentToPayload doc with
    | .error e => .failed ("[Qdrant.Store] payload conversion failed: " ++ e)
    | .ok payload =>
      match lib.NewValueMap payload with
      | none => .panicked
      | some values =>
        match buildPoints lib i docs vectors.tail with
        | .points rest => .points (⟨doc.ID, (vectors.headD []).map lib.float32, values⟩ :: rest)
        | other => other

/-- One entry of the log of `Upsert` calls: the batch and the error returned. -/
abbrev UpsertLog := List (List PointStruct × Option String)

/-- The batching loop `for start := 0; start < len(points); start += batchSize`,
with fuel; `none` is fuel exhaustion.  The counters are natural numbers: a second
iteration needs `batchSize < len(points)`, so `start + batchSize` stays below
twice the length of a slice and does not wrap around in a 64-bit `int`. -/
def upsertLoop {σ : Type} (i : Indexer σ) (points : List PointStruct) (batchSize : Nat) :
    Nat → Nat → σ → UpsertLog → Option (σ × UpsertLog × Option String)
  | 0, _, _, _ => none
  | fuel + 1, start, st, log =>
    if start < points.length then
      let stop := if start + batchSize > points.length then points.length
        else start + batchSize
      let batch := slice points start stop
      match i.Client st i.Collection batch with
      | (st1, some e) => some (st1, log ++ [(batch, some e)], some e)
      | (st1, none) => upsertLoop i points batchSize fuel (start + batchSize) st1
          (log ++ [(batch, none)])
    else some (st, log, none)

/-- The batch size `Store` works with. -/
def effectiveBatchSize (batchSize : Int) : Nat :=
  if batchSize ≤ 0 then 10 else batchSize.toNat

/-- What a call of `Store` that returns leaves behind: the two results, the state
of the store and the log of `Upsert` calls. -/
structure StoreResult (σ : Type) where
  ids : Option (List String)
  err : Option String
  client : σ
  upserts : UpsertLog

/-- How a call of `Store` ends: it returns, a panic leaves it (before any
`Upsert`), or the batching loop of the model ran out of fuel. -/
inductive Outcome (σ : Type) where
  | returned (r : StoreResult σ)
  | panicked
  | outOfFuel

/-- Method `Indexer.Store` (indexer.go:57-110). -/
def Store {σ : Type} (lib : Lib) (i : Indexer σ) (st : σ) (docs : List Document) :
    Outcome σ :=
  if docs.length = 0 then .returned ⟨none, none, st, []⟩
  else
    let texts := docs.map (fun d => d.Content)
    match i.Embedding texts with
    | .error e => .returned ⟨none, some ("[Qdrant.Store] embedding failed: " ++ e), st, []⟩
    | .ok vectors =>
      if vectors.length ≠ docs.length then
        .returned ⟨none, some ("[Qdrant.Store] embedding result length mismatch: want " ++
          toString docs.length ++ ", got " ++ toString vectors.length), st, []⟩
      else
        match buildPoints lib i docs vectors with
        | .failed e => .returned ⟨none, some e, st, []⟩
        | .panicked => .panicked
        | .points points =>
          let batchSize := effectiveBatchSize i.BatchSize
          match upsertLoop i points batchSize (points.length + 1) 0 st [] with
          | none => .outOfFuel
          | some (st1, log, some e) =>
            .returned ⟨none, some ("[Qdrant.Store] Upsert failed: " ++ e), st1, log⟩
          | some (st1, log, none) =>
            .returned ⟨some (docs.map (fun d => d.ID)), none, st1, log⟩

/-- The log is what the client answered: each entry holds the answer of
`Upsert` to its batch in the state the previous calls left, and `last` is the
state after the last call. -/
def Threaded {σ : Type} (client : UpsertFn σ) (coll : String) :
    σ → UpsertLog → σ → Prop
  | st, [], last => last = st
  | st, (batch, e) :: rest, last =>
    (client st coll batch).2 = e ∧ Threaded client coll (client st coll batch).1 rest last

/-- The points in document order: for each document its id, its vector
converted component by component, and the value map of its payload. -/
def expectedPoints (lib : Lib) : List Document → List (List Int) → List ValueMap →
    List PointStruct
  | d :: ds, v :: vs, m :: ms => ⟨d.ID, v.map lib.float32, m⟩ :: expectedPoints lib ds vs ms
  | _, _, _ => []

/-- A store that records the size of every batch and never fails. -/
def exClient : UpsertFn (List Nat) := fun st _ batch => (st ++ [batch.length], none)

/-- An embedder that returns one vector per text. -/
def exEmbed : EmbedFn := fun texts => .ok (texts.map (fun _ => [1, 2]))

/-- An embedder that returns no vector and no error. -/
def exShortEmbed : EmbedFn := fun _ => .ok []

/-- A library whose `NewValueMap` rejects payloads with a value `"chan"`. -/
def exLib : Lib :=
  ⟨fun x => x, fun pl => if pl.any (fun kv => kv.2 == "chan") then none else some pl⟩

/-- A configuration with a batch size of two and defaults elsewhere. -/
def exConfig : IndexerConfig (List Nat) := ⟨some exClient, "", some exEmbed, 2, none⟩

/-- The indexer `NewIndexer` builds from `exConfig`. -/
def exIndexer : Indexer (List Nat) :=
  ⟨exClient, "eino_collection", exEmbed, 2, defaultDocumentToPayload⟩

/-- An indexer whose embedder returns too few vectors. -/
def exShortIndexer : Indexer (List Nat) :=
  ⟨exClient, "eino_collection", exShortEmbed, 2, defaultDocumentToPayload⟩

/-- Three documents. -/
def exDocs : List Document := [⟨"a", "alpha", []⟩, ⟨"b", "beta", []⟩, ⟨"c", "gamma", []⟩]

/-- A document with a metadata value that `NewValueMap` does not support. -/
def exBadDocs : List Document := [⟨"a", "alpha", []⟩, ⟨"b", "beta", [("conn", "chan")]⟩]

/-- The payloads of `exDocs`. -/
def exPayloads : List Payload :=
  [[("id", "a"), ("content", "alpha")], [("id", "b"), ("content", "beta")],
   [("id", "c"), ("content", "gamma")]]

end Qdrant

/-! # Theorems about the span lifecycle tracker -/

namespace Fornax

theorem step_cases (i : Nat) (m : Machine) :
    step i m = m ∨
    (∃ a rest, m.main = .act a :: rest ∧ enabled a m.closed = true ∧
      step i m = ⟨continueAfter a rest, m.tasks, closeEffect a m.closed, m.trace ++ [a]⟩) ∨
    (∃ b rest, m.main = .go b :: rest ∧
      step i m = ⟨rest, m.tasks ++ [b], m.closed, m.trace⟩) ∨
    (∃ j a rest, m.tasks[j]? = some (a :: rest) ∧ enabled a m.closed = true ∧
      step i m = ⟨m.main, m.tasks.set j (continueAfter a rest), closeEffect a m.closed,
        m.trace ++ [a]⟩) := by
  cases i with
  | zero =>
    unfold step
    cases hm : m.main with
    | nil => simp
    | cons x rest =>
      cases x with
      | go b => right; right; left; exact ⟨b, rest, rfl, by simp⟩
      | act a =>
        by_cases he : enabled a m.closed = true
        · right; left; exact ⟨a, rest, rfl, he, by simp [he]⟩
        · left; simp [he]
  | succ j =>
    unfold step
    cases ht : m.tasks[j]? with
    | none => left; simp [ht]
    | some t =>
      cases t with
      | nil => left; simp [ht]
      | cons a rest =>
        by_cases he : enabled a m.closed = true
        · right; right; right; exact ⟨j, a, rest, ht, he, by simp [ht, he]⟩
        · left; simp [ht, he]

theorem run_invariant (P : Machine → Prop) (hstep : ∀ i m, P m → P (step i m))
    (sched : List Nat) (m : Machine) (h : P m) : P (run sched m) := by
  induction sched generalizing m with
  | nil => exact h
  | cons i rest ih => exact ih _ (hstep i m h)

theorem continueAfter_cases {α : Type} (a : Act) (rest : List α) :
    continueAfter a rest = rest ∨ continueAfter a rest = [] := by
  cases a <;> simp [continueAfter]

theorem mem_of_task {tasks : List (List Act)} {j : Nat} {t : List Act}
    (h : tasks[j]? = some t) : t ∈ tasks := by
  rw [List.getElem?_eq_some] at h
  obtain ⟨hj, rfl⟩ := h
  exact List.getElem_mem _

/-- A property of goroutine bodies that holds of the empty body and is kept by
dropping the first effect stays true of all goroutines after one of them moves. -/
theorem forall_tasks_set {Q : List Act → Prop} {tasks : List (List Act)} {j : Nat}
    {a : Act} {rest : List Act} (hall : ∀ t ∈ tasks, Q t) (hnil : Q [])
    (hrest : Q rest) : ∀ t ∈ tasks.set j (continueAfter a rest), Q t := by
  intro t ht
  rcases List.mem_or_eq_of_mem_set ht with h | h
  · exact hall t h
  · subst h
    rcases continueAfter_cases a rest with h | h <;> rw [h] <;> assumption

theorem absentInv_step (P : Act → Bool) (i : Nat) (m : Machine) (h : AbsentInv P m) :
    AbsentInv P (step i m) := by
  obtain ⟨hmain, htasks, htrace⟩ := h
  rcases step_cases i m with h | ⟨a, rest, hm, -, h⟩ | ⟨b, rest, hm, h⟩ | ⟨j, a, rest, hj, -, h⟩
  · rw [h]; exact ⟨hmain, htasks, htrace⟩
  · rw [h]
    rw [hm] at hmain
    simp only [absent, Bool.and_eq_true, Bool.not_eq_true'] at hmain
    refine ⟨?_, htasks, ?_⟩
    · show absent P (continueAfter a rest) = true
      rcases continueAfter_cases a rest with h | h <;> rw [h]
      · exact hmain.2
      · rfl
    · intro x hx
      simp only [List.mem_append, List.mem_singleton] at hx
      rcases hx with hx | hx
      · exact htrace x hx
      · rw [hx]; exact hmain.1
  · rw [h]
    rw [hm] at hmain
    simp only [absent, Bool.and_eq_true] at hmain
    refine ⟨hmain.2, ?_, htrace⟩
    intro t ht
    simp only [List.mem_append, List.mem_singleton] at ht
    rcases ht with ht | ht
    · exact htasks t ht
    · rw [ht]; exact hmain.1
  · rw [h]
    have ht := htasks _ (mem_of_task hj)
    simp only [absentA, List.all_cons, Bool.and_eq_true, Bool.not_eq_true'] at ht
    refine ⟨hmain, ?_, ?_⟩
    · exact forall_tasks_set htasks (by simp [absentA]) (by simpa [absentA] using ht.2)
    · intro x hx
      simp only [List.mem_append, List.mem_singleton] at hx
      rcases hx with hx | hx
      · exact htrace x hx
      · rw [hx]; exact ht.1

/-- If the caller program holds no effect satisfying `P`, no schedule executes one. -/
theorem absent_run (P : Act → Bool) (prog : List Instr) (closed : List Nat)
    (h : absent P prog = true) (sched : List Nat) :
    ∀ a ∈ (run sched (initMachine prog closed)).trace, P a = false := by
  have h0 : AbsentInv P (initMachine prog closed) := by
    refine ⟨h, ?_, ?_⟩ <;> simp [initMachine]
  exact (run_invariant (AbsentInv P) (absentInv_step P) sched _ h0).2.2

theorem mem_closeEffect (c : Nat) (a : Act) (cl : List Nat) :
    c ∈ closeEffect a cl ↔ c ∈ cl ∨ a = .close c := by
  cases a <;> simp [closeEffect]
  rename_i ch
  constructor
  · rintro (h | h)
    · exact Or.inr h.symm
    · exact Or.inl h
  · rintro (h | h)
    · exact Or.inr h
    · exact Or.inl h.symm

theorem continueAfter_keep {α : Type} (Q : List α → Bool) (hnil : Q [] = true) (a : Act)
    {r : List α} (h : Q r = true) : Q (continueAfter a r) = true := by
  rcases continueAfter_cases a r with h1 | h1 <;> rw [h1] <;> assumption

theorem finGuardedA_head {c : Nat} {a : Act} {r : List Act} {cl : List Nat}
    (h : finGuardedA c (a :: r) = true) (he : enabled a cl = true) (hc : c ∉ cl) :
    isFinish a = false ∧ finGuardedA c r = true := by
  unfold finGuardedA at h
  by_cases hw : a = .wait c
  · subst hw
    simp [enabled] at he
    exact absurd he hc
  · simp only [hw, if_false] at h
    by_cases hf : isFinish a = true
    · simp [hf] at h
    · simp only [hf] at h
      exact ⟨by simpa using hf, by simpa using h⟩

theorem finGuarded_head {c : Nat} {a : Act} {r : List Instr} {cl : List Nat}
    (h : finGuarded c (.act a :: r) = true) (he : enabled a cl = true) (hc : c ∉ cl) :
    isFinish a = false ∧ finGuarded c r = true := by
  unfold finGuarded at h
  by_cases hw : a = .wait c
  · subst hw
    simp [enabled] at he
    exact absurd he hc
  · simp only [hw, if_false] at h
    by_cases hf : isFinish a = true
    · simp [hf] at h
    · simp only [hf] at h
      exact ⟨by simpa using hf, by simpa using h⟩

theorem quietA_head {c : Nat} {a : Act} {r : List Act} (h : quietA c (a :: r) = true) :
    isInputTag a = false ∧ a ≠ .close c ∧ quietA c r = true := by
  simp only [quietA, List.all_cons, Bool.and_eq_true, calmAct, Bool.not_eq_true',
    decide_eq_false_iff_not] at h
  exact ⟨h.1.1, h.1.2, h.2⟩

theorem quiet_head {c : Nat} {a : Act} {r : List Instr} (h : quiet c (.act a :: r) = true) :
    isInputTag a = false ∧ a ≠ .close c ∧ quiet c r = true := by
  simp only [quiet, Bool.and_eq_true, calmAct, Bool.not_eq_true',
    decide_eq_false_iff_not] at h
  exact ⟨h.1.1, h.1.2, h.2⟩

theorem mainOk_head {c : Nat} {a : Act} {r : List Instr} (h : mainOk c (.act a :: r) = true) :
    isInputTag a = false ∧ a ≠ .close c ∧ mainOk c r = true := by
  simp only [mainOk, Bool.and_eq_true, calmAct, Bool.not_eq_true',
    decide_eq_false_iff_not] at h
  exact ⟨h.1.1, h.1.2, h.2⟩

theorem closerOkA_head {c : Nat} {a : Act} {r : List Act} (h : closerOkA c (a :: r) = true) :
    (a = .close c → quietA c r = true) ∧ (a ≠ .close c → closerOkA c r = true) := by
  unfold closerOkA at h
  constructor
  · intro ha; simpa [ha] using h
  · intro ha; simpa [ha] using h

theorem pendA_head {e0 : Act} {c : Nat} {a : Act} {r : List Act}
    (h : pendA e0 c (a :: r) = true) : a = e0 ∨ (a ≠ .close c ∧ pendA e0 c r = true) := by
  unfold pendA at h
  by_cases h1 : a = e0
  · exact Or.inl h1
  · by_cases h2 : a = .close c
    · simp [h1, h2] at h
      exact absurd (h2.trans h) h1
    · simp only [h1, h2, if_false] at h
      exact Or.inr ⟨h2, h⟩

theorem pend_head {e0 : Act} {c : Nat} {a : Act} {r : List Instr}
    (h : pend e0 c (.act a :: r) = true) : a = e0 ∨ (a ≠ .close c ∧ pend e0 c r = true) := by
  unfold pend at h
  by_cases h1 : a = e0
  · exact Or.inl h1
  · by_cases h2 : a = .close c
    · simp [h1, h2] at h
      exact absurd (h2.trans h) h1
    · simp only [h1, h2, if_false] at h
      exact Or.inr ⟨h2, h⟩

theorem ordered_append {c : Nat} {e0 : Act} {tr : List Act} {a : Act}
    (h : Ordered c e0 tr)
    (htag : isInputTag a = true → ∀ x ∈ tr, isFinish x = false)
    (hfin : isFinish a = true → Act.close c ∈ tr ∧ e0 ∈ tr) :
    Ordered c e0 (tr ++ [a]) := by
  intro pre s post heq
  rcases List.eq_nil_or_concat post with hp | ⟨post1, b, hp⟩
  · subst hp
    have h1 : tr ++ [a] = pre ++ [Act.finish s] := heq
    obtain ⟨h2, h3⟩ := List.append_inj' h1 rfl
    have h3 : a = Act.finish s := by simpa using h3
    subst h2
    have := hfin (by rw [h3]; rfl)
    exact ⟨this.1, this.2, by simp⟩
  · rw [List.concat_eq_append] at hp
    subst hp
    have h1 : tr ++ [a] = (pre ++ Act.finish s :: post1) ++ [b] := by
      rw [heq]; simp
    obtain ⟨h2, h3⟩ := List.append_inj' h1 rfl
    have h3 : a = b := by simpa using h3
    obtain ⟨g1, g2, g3⟩ := h pre s post1 h2
    refine ⟨g1, g2, ?_⟩
    intro x hx
    simp only [List.mem_append, List.mem_singleton] at hx
    rcases hx with hx | hx
    · exact g3 x hx
    · subst hx
      subst h3
      by_contra hne
      have := htag (by simpa using hne) (Act.finish s) (by rw [h2]; simp)
      simp [isFinish] at this

theorem gateInv_go {c : Nat} {e0 : Act} {m : Machine} {b : List Act} {rest : List Instr}
    (h : GateInv c e0 m) (hm : m.main = .go b :: rest) :
    GateInv c e0 ⟨rest, m.tasks ++ [b], m.closed, m.trace⟩ := by
  have mem_app : ∀ {Q : List Act → Prop}, (∀ t ∈ m.tasks, Q t) → Q b →
      ∀ t ∈ m.tasks ++ [b], Q t := by
    intro Q h1 h2 t ht
    simp only [List.mem_append, List.mem_singleton] at ht
    rcases ht with ht | ht
    · exact h1 t ht
    · rw [ht]; exact h2
  refine ⟨h.closed_trace, ?_, h.noFinish, ?_, ?_, ?_, h.tagBeforeClose, h.ordered,
    h.open_trace, h.once⟩
  · rcases h.guard with g | ⟨g1, g2⟩
    · exact Or.inl g
    · rw [hm] at g1
      simp only [finGuarded, Bool.and_eq_true] at g1
      exact Or.inr ⟨g1.2, mem_app g2 g1.1⟩
  · intro hc
    obtain ⟨g1, g2⟩ := h.calm hc
    rw [hm] at g1
    simp only [quiet, Bool.and_eq_true] at g1
    exact ⟨g1.2, mem_app g2 g1.1⟩
  · intro hc
    rcases h.closer hc with ⟨g1, g2⟩ | ⟨g1, t0, r0, g2, g3, g4⟩
    · rw [hm] at g2
      simp only [mainOk, Bool.and_eq_true] at g2
      refine Or.inr ⟨g2.2, b, [], ?_, g2.1, by simp⟩
      show m.tasks ++ [b] = [b]
      rw [g1]; rfl
    · rw [hm] at g1
      simp only [quiet, Bool.and_eq_true] at g1
      refine Or.inr ⟨g1.2, t0, r0 ++ [b], ?_, g3, ?_⟩
      · show m.tasks ++ [b] = t0 :: (r0 ++ [b])
        rw [g2]; rfl
      · intro t ht
        simp only [List.mem_append, List.mem_singleton] at ht
        rcases ht with ht | ht
        · exact g4 t ht
        · rw [ht]; exact g1.1
  · rcases h.pending with g | ⟨g1, g2⟩
    · exact Or.inl g
    · rw [hm] at g1
      simp only [pend, Bool.and_eq_true] at g1
      exact Or.inr ⟨g1.2, mem_app g2 g1.1⟩

theorem gateInv_trace {c : Nat} {e0 : Act} {m : Machine} {a : Act}
    (h : GateInv c e0 m) (hf : HeadFacts c e0 m a) :
    (c ∈ closeEffect a m.closed → Act.close c ∈ m.trace ++ [a]) ∧
    (c ∉ closeEffect a m.closed → ∀ x ∈ m.trace ++ [a], isFinish x = false) ∧
    (Act.close c ∈ m.trace ++ [a] → e0 ∈ m.trace ++ [a]) ∧
    Ordered c e0 (m.trace ++ [a]) ∧
    (c ∉ closeEffect a m.closed → Act.close c ∉ m.trace ++ [a]) ∧
    (m.trace ++ [a]).count (Act.close c) ≤ 1 := by
  refine ⟨?_, ?_, ?_, ?_, ?_, ?_⟩
  · intro hc
    rw [mem_closeEffect] at hc
    simp only [List.mem_append, List.mem_singleton]
    rcases hc with hc | hc
    · exact Or.inl (h.closed_trace hc)
    · exact Or.inr hc.symm
  · intro hc x hx
    rw [mem_closeEffect] at hc
    push_neg at hc
    simp only [List.mem_append, List.mem_singleton] at hx
    rcases hx with hx | hx
    · exact h.noFinish hc.1 x hx
    · rw [hx]; exact hf.notFinish hc.1
  · intro hcl
    simp only [List.mem_append, List.mem_singleton] at hcl ⊢
    rcases hcl with hcl | hcl
    · exact Or.inl (h.tagBeforeClose hcl)
    · rcases hf.tagged hcl.symm with g | g
      · exact Or.inr g.symm
      · exact Or.inl g
  · apply ordered_append h.ordered
    · intro ht
      by_cases hc : c ∈ m.closed
      · rw [hf.notTag hc] at ht; exact absurd ht (by simp)
      · exact h.noFinish hc
    · intro hfin
      by_cases hc : c ∈ m.closed
      · have := h.closed_trace hc
        exact ⟨this, h.tagBeforeClose this⟩
      · rw [hf.notFinish hc] at hfin; exact absurd hfin (by simp)
  · intro hc
    rw [mem_closeEffect] at hc
    push_neg at hc
    simp only [List.mem_append, List.mem_singleton, not_or]
    exact ⟨h.open_trace hc.1, fun x => hc.2 x.symm⟩
  · rw [List.count_append]
    by_cases ha : a = .close c
    · have hc : c ∉ m.closed := fun x => hf.notClose x ha
      have := h.open_trace hc
      rw [List.count_eq_zero_of_not_mem this, ha]
      simp
    · have : [a].count (Act.close c) = 0 := by
        apply List.count_eq_zero_of_not_mem
        simp only [List.mem_singleton]
        exact fun x => ha x.symm
      rw [this]
      exact h.once

theorem gateInv_mainAct {c : Nat} {e0 : Act} {m : Machine} {a : Act} {rest : List Instr}
    (h : GateInv c e0 m) (hm : m.main = .act a :: rest) (he : enabled a m.closed = true) :
    GateInv c e0 ⟨continueAfter a rest, m.tasks, closeEffect a m.closed, m.trace ++ [a]⟩ := by
  have hf : HeadFacts c e0 m a := by
    refine ⟨?_, ?_, ?_, ?_⟩
    · intro hc
      rcases h.guard with g | ⟨g1, _⟩
      · exact absurd g hc
      · rw [hm] at g1; exact (finGuarded_head g1 he hc).1
    · intro hc
      have g := (h.calm hc).1
      rw [hm] at g; exact (quiet_head g).1
    · intro hc
      have g := (h.calm hc).1
      rw [hm] at g; exact (quiet_head g).2.1
    · intro ha
      rcases h.pending with g | ⟨g1, _⟩
      · exact Or.inr g
      · rw [hm] at g1
        rcases pend_head g1 with g | g
        · exact Or.inl g
        · exact absurd ha g.1
  obtain ⟨t1, t2, t3, t4, t5, t6⟩ := gateInv_trace h hf
  refine ⟨t1, ?_, t2, ?_, ?_, ?_, t3, t4, t5, t6⟩
  · by_cases hc : c ∈ closeEffect a m.closed
    · exact Or.inl hc
    · right
      have hc0 : c ∉ m.closed := fun x => hc ((mem_closeEffect c a m.closed).2 (Or.inl x))
      rcases h.guard with g | ⟨g1, g2⟩
      · exact absurd g hc0
      · rw [hm] at g1
        exact ⟨continueAfter_keep (finGuarded c) rfl a (finGuarded_head g1 he hc0).2, g2⟩
  · intro hc
    show quiet c (continueAfter a rest) = true ∧ ∀ t ∈ m.tasks, quietA c t = true
    by_cases hc0 : c ∈ m.closed
    · obtain ⟨g1, g2⟩ := h.calm hc0
      rw [hm] at g1
      exact ⟨continueAfter_keep (quiet c) rfl a (quiet_head g1).2.2, g2⟩
    · have ha : a = .close c := by
        rcases (mem_closeEffect c a m.closed).1 hc with x | x
        · exact absurd x hc0
        · exact x
      rcases h.closer hc0 with ⟨_, g2⟩ | ⟨g1, _⟩
      · rw [hm] at g2; exact absurd ha (mainOk_head g2).2.1
      · rw [hm] at g1; exact absurd ha (quiet_head g1).2.1
  · intro hc
    show (m.tasks = [] ∧ mainOk c (continueAfter a rest) = true) ∨
      (quiet c (continueAfter a rest) = true ∧ ∃ t0 r0, m.tasks = t0 :: r0 ∧
        closerOkA c t0 = true ∧ ∀ t ∈ r0, quietA c t = true)
    have hc0 : c ∉ m.closed := fun x => hc ((mem_closeEffect c a m.closed).2 (Or.inl x))
    rcases h.closer hc0 with ⟨g1, g2⟩ | ⟨g1, g2⟩
    · rw [hm] at g2
      exact Or.inl ⟨g1, continueAfter_keep (mainOk c) rfl a (mainOk_head g2).2.2⟩
    · rw [hm] at g1
      exact Or.inr ⟨continueAfter_keep (quiet c) rfl a (quiet_head g1).2.2, g2⟩
  · show e0 ∈ m.trace ++ [a] ∨
      (pend e0 c (continueAfter a rest) = true ∧ ∀ t ∈ m.tasks, pendA e0 c t = true)
    rcases h.pending with g | ⟨g1, g2⟩
    · exact Or.inl (by simp [g])
    · rw [hm] at g1
      rcases pend_head g1 with g | g
      · exact Or.inl (by simp [g])
      · exact Or.inr ⟨continueAfter_keep (pend e0 c) rfl a g.2, g2⟩

theorem gateInv_taskAct {c : Nat} {e0 : Act} {m : Machine} {j : Nat} {a : Act}
    {rest : List Act} (h : GateInv c e0 m) (hj : m.tasks[j]? = some (a :: rest))
    (he : enabled a m.closed = true) :
    GateInv c e0 ⟨m.main, m.tasks.set j (continueAfter a rest), closeEffect a m.closed,
      m.trace ++ [a]⟩ := by
  have hmem := mem_of_task hj
  have hf : HeadFacts c e0 m a := by
    refine ⟨?_, ?_, ?_, ?_⟩
    · intro hc
      rcases h.guard with g | ⟨_, g2⟩
      · exact absurd g hc
      · exact (finGuardedA_head (g2 _ hmem) he hc).1
    · intro hc
      exact (quietA_head ((h.calm hc).2 _ hmem)).1
    · intro hc
      exact (quietA_head ((h.calm hc).2 _ hmem)).2.1
    · intro ha
      rcases h.pending with g | ⟨_, g2⟩
      · exact Or.inr g
      · rcases pendA_head (g2 _ hmem) with g | g
        · exact Or.inl g
        · exact absurd ha g.1
  obtain ⟨t1, t2, t3, t4, t5, t6⟩ := gateInv_trace h hf
  refine ⟨t1, ?_, t2, ?_, ?_, ?_, t3, t4, t5, t6⟩
  · by_cases hc : c ∈ closeEffect a m.closed
    · exact Or.inl hc
    · right
      have hc0 : c ∉ m.closed := fun x => hc ((mem_closeEffect c a m.closed).2 (Or.inl x))
      rcases h.guard with g | ⟨g1, g2⟩
      · exact absurd g hc0
      · exact ⟨g1, forall_tasks_set g2 rfl (finGuardedA_head (g2 _ hmem) he hc0).2⟩
  · intro hc
    show quiet c m.main = true ∧
      ∀ t ∈ m.tasks.set j (continueAfter a rest), quietA c t = true
    by_cases hc0 : c ∈ m.closed
    · obtain ⟨g1, g2⟩ := h.calm hc0
      exact ⟨g1, forall_tasks_set g2 rfl (quietA_head (g2 _ hmem)).2.2⟩
    · have ha : a = .close c := by
        rcases (mem_closeEffect c a m.closed).1 hc with x | x
        · exact absurd x hc0
        · exact x
      rcases h.closer hc0 with ⟨g1, _⟩ | ⟨g1, t0, r0, g2, g3, g4⟩
      · rw [g1] at hmem; exact absurd hmem (by simp)
      · refine ⟨g1, ?_⟩
        rw [g2] at hj ⊢
        cases j with
        | zero =>
          simp only [List.getElem?_cons_zero, Option.some.injEq] at hj
          rw [hj] at g3
          have hq := (closerOkA_head g3).1 ha
          intro t ht
          simp only [List.set_cons_zero, List.mem_cons] at ht
          rcases ht with ht | ht
          · rw [ht]; exact continueAfter_keep (quietA c) rfl a hq
          · exact g4 t ht
        | succ k =>
          simp only [List.getElem?_cons_succ] at hj
          exact absurd ha (quietA_head (g4 _ (mem_of_task hj))).2.1
  · intro hc
    show (m.tasks.set j (continueAfter a rest) = [] ∧ mainOk c m.main = true) ∨
      (quiet c m.main = true ∧ ∃ t0 r0, m.tasks.set j (continueAfter a rest) = t0 :: r0 ∧
        closerOkA c t0 = true ∧ ∀ t ∈ r0, quietA c t = true)
    have hc0 : c ∉ m.closed := fun x => hc ((mem_closeEffect c a m.closed).2 (Or.inl x))
    have ha : a ≠ .close c := fun x => hc ((mem_closeEffect c a m.closed).2 (Or.inr x))
    rcases h.closer hc0 with ⟨g1, _⟩ | ⟨g1, t0, r0, g2, g3, g4⟩
    · rw [g1] at hmem; exact absurd hmem (by simp)
    · right
      refine ⟨g1, ?_⟩
      rw [g2] at hj ⊢
      cases j with
      | zero =>
        simp only [List.getElem?_cons_zero, Option.some.injEq] at hj
        rw [hj] at g3
        exact ⟨_, r0, by simp, continueAfter_keep (closerOkA c) rfl a
          ((closerOkA_head g3).2 ha), g4⟩
      | succ k =>
        simp only [List.getElem?_cons_succ] at hj
        exact ⟨t0, r0.set k (continueAfter a rest), by simp, g3,
          forall_tasks_set g4 rfl (quietA_head (g4 _ (mem_of_task hj))).2.2⟩
  · show e0 ∈ m.trace ++ [a] ∨ (pend e0 c m.main = true ∧
      ∀ t ∈ m.tasks.set j (continueAfter a rest), pendA e0 c t = true)
    rcases h.pending with g | ⟨g1, g2⟩
    · exact Or.inl (by simp [g])
    · rcases pendA_head (g2 _ hmem) with g | g
      · exact Or.inl (by simp [g])
      · exact Or.inr ⟨g1, forall_tasks_set g2 rfl g.2⟩

theorem gateInv_step (c : Nat) (e0 : Act) (i : Nat) (m : Machine) (h : GateInv c e0 m) :
    GateInv c e0 (step i m) := by
  rcases step_cases i m with h1 | ⟨a, rest, hm, he, h1⟩ | ⟨b, rest, hm, h1⟩ |
    ⟨j, a, rest, hj, he, h1⟩
  · rw [h1]; exact h
  · rw [h1]; exact gateInv_mainAct h hm he
  · rw [h1]; exact gateInv_go h hm
  · rw [h1]; exact gateInv_taskAct h hj he

/-- The invariant holds initially when the gate is open and the caller program
is well formed. -/
theorem gateInv_init (c : Nat) (e0 : Act) (prog : List Instr) (closed : List Nat)
    (hc : c ∉ closed) (h1 : finGuarded c prog = true) (h2 : mainOk c prog = true)
    (h3 : pend e0 c prog = true) : GateInv c e0 (initMachine prog closed) := by
  refine ⟨fun x => absurd x hc, Or.inr ⟨h1, by simp [initMachine]⟩, by simp [initMachine],
    fun x => absurd x hc, fun _ => Or.inl ⟨rfl, h2⟩, Or.inr ⟨h3, by simp [initMachine]⟩,
    by simp [initMachine], ?_, by simp [initMachine], by simp [initMachine]⟩
  intro pre s post heq
  simp [initMachine] at heq

/-- For a well-formed caller program, every schedule yields an ordered trace. -/
theorem ordered_run (c : Nat) (e0 : Act) (prog : List Instr) (closed : List Nat)
    (hc : c ∉ closed) (h1 : finGuarded c prog = true) (h2 : mainOk c prog = true)
    (h3 : pend e0 c prog = true) (sched : List Nat) :
    Ordered c e0 (run sched (initMachine prog closed)).trace :=
  (run_invariant (GateInv c e0) (gateInv_step c e0) sched _
    (gateInv_init c e0 prog closed hc h1 h2 h3)).ordered

theorem quietA_pendA (e0 : Act) (c : Nat) (t : List Act) (h : quietA c t = true) :
    pendA e0 c t = true := by
  induction t with
  | nil => rfl
  | cons a r ih =>
    obtain ⟨_, h2, h3⟩ := quietA_head h
    unfold pendA
    by_cases h1 : a = e0
    · simp [h1]
    · simp [h1, h2, ih h3]

theorem quiet_pend (e0 : Act) (c : Nat) (p : List Instr) (h : quiet c p = true) :
    pend e0 c p = true := by
  induction p with
  | nil => rfl
  | cons x r ih =>
    cases x with
    | act a =>
      obtain ⟨_, h2, h3⟩ := quiet_head h
      unfold pend
      by_cases h1 : a = e0
      · simp [h1]
      · simp [h1, h2, ih h3]
    | go b =>
      simp only [quiet, Bool.and_eq_true] at h
      simp only [pend, Bool.and_eq_true]
      exact ⟨quietA_pendA e0 c b h.1, ih h.2⟩

theorem quietA_absentA (c : Nat) (t : List Act) (h : quietA c t = true) :
    absentA isInputTag t = true := by
  induction t with
  | nil => rfl
  | cons a r ih =>
    obtain ⟨h1, _, h3⟩ := quietA_head h
    have := ih h3
    simp only [absentA, List.all_cons, Bool.and_eq_true, Bool.not_eq_true'] at this ⊢
    exact ⟨h1, this⟩

theorem quiet_absent (c : Nat) (p : List Instr) (h : quiet c p = true) :
    absent isInputTag p = true := by
  induction p with
  | nil => rfl
  | cons x r ih =>
    cases x with
    | act a =>
      obtain ⟨h1, _, h3⟩ := quiet_head h
      simp only [absent, Bool.and_eq_true, Bool.not_eq_true']
      exact ⟨h1, ih h3⟩
    | go b =>
      simp only [quiet, Bool.and_eq_true] at h
      simp only [absent, Bool.and_eq_true]
      exact ⟨quietA_absentA c b h.1, ih h.2⟩

theorem finGuarded_append (c : Nat) (p q : List Instr) (hp : finGuarded c p = true)
    (hq : finGuarded c q = true) : finGuarded c (p ++ q) = true := by
  induction p with
  | nil => exact hq
  | cons x r ih =>
    cases x with
    | act a =>
      simp only [List.cons_append]
      unfold finGuarded at hp ⊢
      by_cases h1 : a = .wait c
      · simp [h1]
      · by_cases h2 : isFinish a = true
        · simp [h1, h2] at hp
        · simp only [h1, h2, if_false] at hp ⊢
          exact ih hp
    | go b =>
      simp only [List.cons_append, finGuarded, Bool.and_eq_true] at hp ⊢
      exact ⟨hp.1, ih hp.2⟩

theorem quiet_append (c : Nat) (p q : List Instr) (hp : quiet c p = true)
    (hq : quiet c q = true) : quiet c (p ++ q) = true := by
  induction p with
  | nil => exact hq
  | cons x r ih =>
    cases x <;>
    · simp only [List.cons_append, quiet, Bool.and_eq_true] at hp ⊢
      exact ⟨hp.1, ih hp.2⟩

theorem mainOk_append (c : Nat) (p q : List Instr) (hp : mainOk c p = true)
    (hq : quiet c q = true) : mainOk c (p ++ q) = true := by
  induction p with
  | nil =>
    induction q with
    | nil => rfl
    | cons x r ih =>
      cases x with
      | act a =>
        simp only [List.nil_append, quiet, mainOk, Bool.and_eq_true] at hq ih ⊢
        exact ⟨hq.1, ih hq.2⟩
      | go b =>
        simp only [List.nil_append, quiet, mainOk, Bool.and_eq_true] at hq ⊢
        refine ⟨?_, hq.2⟩
        have hb := hq.1
        clear ih hq
        induction b with
        | nil => rfl
        | cons a t iht =>
          obtain ⟨_, h2, h3⟩ := quietA_head hb
          unfold closerOkA
          simp only [h2, if_false]
          exact iht h3
  | cons x r ih =>
    cases x with
    | act a =>
      simp only [List.cons_append, mainOk, Bool.and_eq_true] at hp ⊢
      exact ⟨hp.1, ih hp.2⟩
    | go b =>
      simp only [List.cons_append, mainOk, Bool.and_eq_true] at hp ⊢
      exact ⟨hp.1, quiet_append c r q hp.2 hq⟩

theorem pend_append (e0 : Act) (c : Nat) (p q : List Instr) (hp : pend e0 c p = true)
    (hq : pend e0 c q = true) : pend e0 c (p ++ q) = true := by
  induction p with
  | nil => exact hq
  | cons x r ih =>
    cases x with
    | act a =>
      simp only [List.cons_append]
      unfold pend at hp ⊢
      by_cases h1 : a = e0
      · simp [h1]
      · by_cases h2 : a = .close c
        · simp [h1, h2] at hp
          exact absurd (h2.trans hp) h1
        · simp only [h1, h2, if_false] at hp ⊢
          exact ih hp
    | go b =>
      simp only [List.cons_append, pend, Bool.and_eq_true] at hp ⊢
      exact ⟨hp.1, ih hp.2⟩

theorem absent_append (P : Act → Bool) (p q : List Instr) (hp : absent P p = true)
    (hq : absent P q = true) : absent P (p ++ q) = true := by
  induction p with
  | nil => exact hq
  | cons x r ih =>
    cases x <;>
    · simp only [List.cons_append, absent, Bool.and_eq_true] at hp ⊢
      exact ⟨hp.1, ih hp.2⟩

/-- The tail of the ending callbacks waits on the gate of the context. -/
theorem waitAndFinish_gate (ctx : Ctx) (c : Nat) (si : Span)
    (h : streamInputAsyncVal ctx = some c) : waitAndFinish ctx si = [.wait c, .finish si] := by
  simp [waitAndFinish, h]

/-- An ending callback on a context whose gate is `c` finishes only after a
receive on `c`. -/
theorem endCall_finGuarded (v : Vocab) (l : einoTracer) (ctx : Ctx) (info : Option RunInfo)
    (op : EndOp) (c : Nat) (h : streamInputAsyncVal ctx = some c) :
    finGuarded c (endCall v l ctx info op).body = true := by
  cases op with
  | onEnd output =>
    simp only [endCall, OnEnd]
    repeat' split
    all_goals simp [finGuarded, isFinish, waitAndFinish_gate ctx c _ h]
  | onError err =>
    simp only [endCall, OnError]
    repeat' split
    all_goals simp [finGuarded, isFinish, waitAndFinish_gate ctx c _ h]
  | onEndWithStreamOutput output =>
    simp only [endCall, OnEndWithStreamOutput, streamOutputTask]
    repeat' split
    all_goals simp [finGuarded, finGuardedA, isFinish, waitAndFinish_gate ctx c _ h]

/-- An ending callback neither sets input-stream tags nor closes a channel. -/
theorem endCall_quiet (v : Vocab) (l : einoTracer) (ctx : Ctx) (info : Option RunInfo)
    (op : EndOp) (c : Nat) : quiet c (endCall v l ctx info op).body = true := by
  cases op with
  | onEnd output =>
    simp only [endCall, OnEnd, waitAndFinish]
    repeat' split
    all_goals simp [quiet, calmAct, isInputTag]
  | onError err =>
    simp only [endCall, OnError, waitAndFinish]
    repeat' split
    all_goals simp [quiet, calmAct, isInputTag]
  | onEndWithStreamOutput output =>
    simp only [endCall, OnEndWithStreamOutput, streamOutputTask, waitAndFinish]
    repeat' split
    all_goals simp [quiet, quietA, calmAct, isInputTag]

theorem streamInputTask_eq (p : CallbackDataParser) (ctx : Ctx) (info : RunInfo)
    (input : Stream) (si : Span) (stopCh : Nat) :
    streamInputTask p ctx info input si stopCh =
      [.parse .streamInput, afterParse p ctx info input si, .closeStream .streamInput,
        .close stopCh] := by
  unfold streamInputTask afterParse
  split <;> rfl

theorem afterParse_ne_close (p : CallbackDataParser) (ctx : Ctx) (info : RunInfo)
    (input : Stream) (si : Span) (c : Nat) : afterParse p ctx info input si ≠ .close c := by
  unfold afterParse
  split <;> simp

theorem afterParse_ne_wait (p : CallbackDataParser) (ctx : Ctx) (info : RunInfo)
    (input : Stream) (si : Span) (c : Nat) : afterParse p ctx info input si ≠ .wait c := by
  unfold afterParse
  split <;> simp

theorem afterParse_not_finish (p : CallbackDataParser) (ctx : Ctx) (info : RunInfo)
    (input : Stream) (si : Span) : isFinish (afterParse p ctx info input si) = false := by
  unfold afterParse
  split <;> rfl

/-- The program of a start-with-stream callback that starts its goroutine. -/
theorem OnStartWithStreamInput_spawn (v : Vocab) (l : einoTracer) (p : CallbackDataParser)
    (hp : l.parser = some p) (ctx : Ctx) (info : RunInfo) (input : Stream) (stopCh : Nat)
    (id : Nat) (ctx1 : Ctx)
    (hs : l.tracer.StartSpan ctx (derivedSpanName info) = (some (.fornax id), ctx1, none)) :
    OnStartWithStreamInput v l ctx (some info) input stopCh =
      ⟨some (withStreamInputAsync ctx1 stopCh),
        [.act (.startSpan ctx (derivedSpanName info)), .act (.makeChan stopCh),
         .act (.setTag (.fornax id) .fornaxTags (setFornaxTags v l)),
         .act (.setTag (.fornax id) .runInfo (setRunInfo v info)),
         .go (streamInputTask p (withStreamInputAsync ctx1 stopCh) info input (.fornax id)
           stopCh)]⟩ := by
  unfold derivedSpanName at hs
  simp [OnStartWithStreamInput, hs, hp, derivedSpanName]

/-- A start-with-stream callback that starts no goroutine sets no input-stream tag. -/
theorem OnStartWithStreamInput_nospawn (v : Vocab) (l : einoTracer) (ctx : Ctx)
    (info : RunInfo) (input : Stream) (stopCh : Nat)
    (hs : ∀ id ctx1,
      l.tracer.StartSpan ctx (derivedSpanName info) ≠ (some (.fornax id), ctx1, none)) :
    ∃ ctx2, (OnStartWithStreamInput v l ctx (some info) input stopCh).ret = some ctx2 ∧
      absent isInputTag (OnStartWithStreamInput v l ctx (some info) input stopCh).body
        = true := by
  unfold derivedSpanName at hs
  rcases hst : l.tracer.StartSpan ctx (if info.Name = "" then info.Component else info.Name)
    with ⟨span, ctx1, err⟩
  cases err with
  | some e => exact ⟨ctx1, by simp [OnStartWithStreamInput, hst, absent, isInputTag]⟩
  | none =>
    cases span with
    | none =>
      exact ⟨withStreamInputAsync ctx1 stopCh,
        by simp [OnStartWithStreamInput, hst, absent, isInputTag]⟩
    | some sp =>
      cases sp with
      | other id =>
        exact ⟨withStreamInputAsync ctx1 stopCh,
          by simp [OnStartWithStreamInput, hst, absent, isInputTag]⟩
      | fornax id => exact absurd hst (hs id ctx1)

theorem ordered_noTag {c : Nat} {e0 : Act} {tr : List Act} (h : Ordered c e0 tr) :
    NoInputTagAfterFinish tr :=
  fun pre s post heq => (h pre s post heq).2.2

theorem absent_noTag {tr : List Act} (h : ∀ a ∈ tr, isInputTag a = false) :
    NoInputTagAfterFinish tr := by
  intro pre s post heq a ha
  exact h a (by rw [heq]; simp [ha])

/-- Well-formedness of the caller program made of a start-with-stream callback
that starts its goroutine, followed by an ending callback on the returned context. -/
theorem startEnd_wellFormed (v : Vocab) (l : einoTracer) (p : CallbackDataParser)
    (ctx : Ctx) (info : RunInfo) (input : Stream) (stopCh : Nat) (id : Nat) (ctx1 : Ctx)
    (info2 : Option RunInfo) (op : EndOp) (pre : List Instr)
    (hpre : pre = [.act (.startSpan ctx (derivedSpanName info)), .act (.makeChan stopCh),
         .act (.setTag (.fornax id) .fornaxTags (setFornaxTags v l)),
         .act (.setTag (.fornax id) .runInfo (setRunInfo v info)),
         .go (streamInputTask p (withStreamInputAsync ctx1 stopCh) info input (.fornax id)
           stopCh)]) :
    let e0 := afterParse p (withStreamInputAsync ctx1 stopCh) info input (.fornax id)
    let prog := pre ++ (endCall v l (withStreamInputAsync ctx1 stopCh) info2 op).body
    finGuarded stopCh prog = true ∧ mainOk stopCh prog = true ∧ pend e0 stopCh prog = true := by
  intro e0 prog
  have hq := endCall_quiet v l (withStreamInputAsync ctx1 stopCh) info2 op stopCh
  have hne := afterParse_ne_close p (withStreamInputAsync ctx1 stopCh) info input
    (.fornax id) stopCh
  have hnw := afterParse_ne_wait p (withStreamInputAsync ctx1 stopCh) info input
    (.fornax id) stopCh
  have hnf := afterParse_not_finish p (withStreamInputAsync ctx1 stopCh) info input
    (.fornax id)
  refine ⟨?_, ?_, ?_⟩
  · apply finGuarded_append
    · rw [hpre, streamInputTask_eq]
      have hnf2 := hnf
      simp only [isFinish] at hnf2
      simp [finGuarded, finGuardedA, isFinish, hnw, hnf2]
    · exact endCall_finGuarded v l _ info2 op stopCh rfl
  · apply mainOk_append _ _ _ _ hq
    rw [hpre, streamInputTask_eq]
    simp [mainOk, closerOkA, quiet, quietA, calmAct, isInputTag, hne]
  · apply pend_append _ _ _ _ _ (quiet_pend _ _ _ hq)
    rw [hpre, streamInputTask_eq]
    simp [pend, pendA, hne]

/-- C1: for a run started via `OnStartWithStreamInput` with a parser configured
(`stopCh` being the fresh, still open channel that `make` returns), followed by
`OnEnd`, `OnError` or `OnEndWithStreamOutput` on the returned context, every
schedule of the caller and the goroutines produces a trace in which no `SetTag`
of the `ParseStreamInput` result comes after a `Finish`; and when the input-parse
goroutine was started, every `Finish` comes after the close of the gate and, if
the parse returned tags, after the `SetTag` of those tags. -/
theorem C1_finish_after_input_task (v : Vocab) (l : einoTracer) (p : CallbackDataParser)
    (hp : l.parser = some p) (ctx : Ctx) (info : RunInfo) (input : Stream) (stopCh : Nat)
    (closed : List Nat) (hfresh : stopCh ∉ closed) (op : EndOp) (info2 : Option RunInfo)
    (sched : List Nat) :
    ∃ ctx2, (OnStartWithStreamInput v l ctx (some info) input stopCh).ret = some ctx2 ∧
      NoInputTagAfterFinish (run sched (initMachine
        ((OnStartWithStreamInput v l ctx (some info) input stopCh).body ++
          (endCall v l ctx2 info2 op).body) closed)).trace ∧
      ∀ id ctx1,
        l.tracer.StartSpan ctx (derivedSpanName info) = (some (.fornax id), ctx1, none) →
        ∀ pre s post,
          (run sched (initMachine
            ((OnStartWithStreamInput v l ctx (some info) input stopCh).body ++
              (endCall v l ctx2 info2 op).body) closed)).trace
            = pre ++ Act.finish s :: post →
          Act.close stopCh ∈ pre ∧
          ∀ t, p.ParseStreamInput (withStreamInputAsync ctx1 stopCh) info input = some t →
            Act.setTag (.fornax id) (.parsed .streamInput) t ∈ pre := by
  by_cases hs : ∃ id ctx1,
      l.tracer.StartSpan ctx (derivedSpanName info) = (some (.fornax id), ctx1, none)
  · obtain ⟨id, ctx1, hs⟩ := hs
    have hcall := OnStartWithStreamInput_spawn v l p hp ctx info input stopCh id ctx1 hs
    obtain ⟨w1, w2, w3⟩ := startEnd_wellFormed v l p ctx info input stopCh id ctx1 info2 op
      _ rfl
    have hord := ordered_run stopCh _ _ closed hfresh w1 w2 w3 sched
    refine ⟨withStreamInputAsync ctx1 stopCh, by rw [hcall], ?_, ?_⟩
    · rw [hcall]; exact ordered_noTag hord
    · intro id2 ctx3 hs2 pre s post heq
      rw [hs] at hs2
      simp only [Prod.mk.injEq, Option.some.injEq, Span.fornax.injEq, and_true] at hs2
      obtain ⟨rfl, rfl⟩ := hs2
      rw [hcall] at heq
      obtain ⟨g1, g2, _⟩ := hord pre s post heq
      refine ⟨g1, ?_⟩
      intro t ht
      have : afterParse p (withStreamInputAsync ctx1 stopCh) info input (.fornax id)
          = Act.setTag (.fornax id) (.parsed .streamInput) t := by
        simp [afterParse, ht]
      rw [← this]; exact g2
  · push_neg at hs
    obtain ⟨ctx2, h1, h2⟩ := OnStartWithStreamInput_nospawn v l ctx info input stopCh hs
    refine ⟨ctx2, h1, ?_, ?_⟩
    · apply absent_noTag
      apply absent_run
      exact absent_append _ _ _ h2 (quiet_absent 0 _ (endCall_quiet v l ctx2 info2 op 0))
    · intro id ctx1 hs2
      exact absurd hs2 (hs id ctx1)

/-- The instance of C1 at the example tracer: an empty context, channel `0`,
`OnEnd` as the ending callback and the schedule that lets the caller run first. -/
theorem C1_finish_after_input_task_witness :
    exTracer.parser = some exParser ∧ (0 : Nat) ∉ ([] : List Nat) ∧
    ∃ ctx2, (OnStartWithStreamInput exVocab exTracer [] (some exInfo) ["a", "b"] 0).ret
        = some ctx2 ∧
      NoInputTagAfterFinish (run [0, 0, 0, 0, 0, 0, 0, 0, 1, 1, 1, 1, 0, 0] (initMachine
        ((OnStartWithStreamInput exVocab exTracer [] (some exInfo) ["a", "b"] 0).body ++
          (endCall exVocab exTracer ctx2 (some exInfo) (.onEnd "out")).body) [])).trace ∧
      ∀ id ctx1,
        exTracer.tracer.StartSpan [] (derivedSpanName exInfo)
          = (some (.fornax id), ctx1, none) →
        ∀ pre s post,
          (run [0, 0, 0, 0, 0, 0, 0, 0, 1, 1, 1, 1, 0, 0] (initMachine
            ((OnStartWithStreamInput exVocab exTracer [] (some exInfo) ["a", "b"] 0).body ++
              (endCall exVocab exTracer ctx2 (some exInfo) (.onEnd "out")).body) [])).trace
            = pre ++ Act.finish s :: post →
          Act.close 0 ∈ pre ∧
          ∀ t, exParser.ParseStreamInput (withStreamInputAsync ctx1 0) exInfo ["a", "b"]
              = some t →
            Act.setTag (.fornax id) (.parsed .streamInput) t ∈ pre :=
  ⟨rfl, by simp, C1_finish_after_input_task exVocab exTracer exParser rfl [] exInfo
    ["a", "b"] 0 [] (by simp) (.onEnd "out") (some exInfo)
    [0, 0, 0, 0, 0, 0, 0, 0, 1, 1, 1, 1, 0, 0]⟩

/-- C2 (the code at the failing input): with a parser whose `ParseStreamOutput`
panics and a context holding a current span, the goroutine of
`OnEndWithStreamOutput` recovers and closes the stream, and no schedule ever
executes `Finish`: the span stays open. -/
theorem C2_output_panic_leaves_span_open :
    (OnEndWithStreamOutput exTracerPanic [.foreign 0 0] (some exInfo) ["chunk"]).body =
      [.act (.getSpanFromContext [.foreign 0 0]),
       .go [.parse .streamOutput, .recovered, .closeStream .streamOutput]] ∧
    run [0, 0, 1, 1, 1] (initMachine
      (OnEndWithStreamOutput exTracerPanic [.foreign 0 0] (some exInfo) ["chunk"]).body [])
      = ⟨[], [[]], [],
          [.getSpanFromContext [.foreign 0 0], .parse .streamOutput, .recovered,
           .closeStream .streamOutput]⟩ ∧
    ∀ sched, finishCount (run sched (initMachine
      (OnEndWithStreamOutput exTracerPanic [.foreign 0 0] (some exInfo) ["chunk"]).body
      [])).trace = 0 := by
  refine ⟨rfl, rfl, ?_⟩
  intro sched
  unfold finishCount
  rw [List.countP_eq_zero]
  intro a ha
  have := absent_run isFinish _ [] (by rfl) sched a ha
  simp [this]

/-- The machine after the caller ran a start-with-stream callback to its end and
the input-parse goroutine then ran to its end. -/
theorem inputTask_run (v : Vocab) (l : einoTracer) (p : CallbackDataParser)
    (hp : l.parser = some p) (ctx : Ctx) (info : RunInfo) (input : Stream) (stopCh : Nat)
    (closed : List Nat) (id : Nat) (ctx1 : Ctx)
    (hs : l.tracer.StartSpan ctx (derivedSpanName info) = (some (.fornax id), ctx1, none)) :
    run [0, 0, 0, 0, 0, 1, 1, 1, 1]
      (initMachine (OnStartWithStreamInput v l ctx (some info) input stopCh).body closed) =
      ⟨[], [[]], stopCh :: closed,
        [.startSpan ctx (derivedSpanName info), .makeChan stopCh,
         .setTag (.fornax id) .fornaxTags (setFornaxTags v l),
         .setTag (.fornax id) .runInfo (setRunInfo v info),
         .parse .streamInput,
         afterParse p (withStreamInputAsync ctx1 stopCh) info input (.fornax id),
         .closeStream .streamInput, .close stopCh]⟩ := by
  rw [OnStartWithStreamInput_spawn v l p hp ctx info input stopCh id ctx1 hs,
    streamInputTask_eq]
  unfold afterParse
  split <;>
    simp [run, step, initMachine, enabled, continueAfter, closeEffect]

/-- C3: when `OnStartWithStreamInput` starts its input-parse goroutine (parser
configured, span started, `stopCh` the fresh channel), the goroutine, once it has
run through, leaves the gate closed, so that the wait of a later `OnEnd` passes
and its `Finish` is executed.  If `ParseStreamInput` returns, the tags are set,
then the stream is closed, then the gate; if it panics, the panic is recovered
(no `panicked` effect), no tags are set, the stream is closed, then the gate.  In
no schedule, whatever ending callback follows, is the gate closed twice. -/
theorem C3_input_task_closes_gate (v : Vocab) (l : einoTracer) (p : CallbackDataParser)
    (hp : l.parser = some p) (ctx : Ctx) (info : RunInfo) (input : Stream) (stopCh : Nat)
    (closed : List Nat) (hfresh : stopCh ∉ closed) (id : Nat) (ctx1 : Ctx)
    (hs : l.tracer.StartSpan ctx (derivedSpanName info) = (some (.fornax id), ctx1, none)) :
    (∃ e, run [0, 0, 0, 0, 0, 1, 1, 1, 1]
        (initMachine (OnStartWithStreamInput v l ctx (some info) input stopCh).body closed) =
        ⟨[], [[]], stopCh :: closed,
          [.startSpan ctx (derivedSpanName info), .makeChan stopCh,
           .setTag (.fornax id) .fornaxTags (setFornaxTags v l),
           .setTag (.fornax id) .runInfo (setRunInfo v info),
           .parse .streamInput, e, .closeStream .streamInput, .close stopCh]⟩ ∧
        (∀ t, p.ParseStreamInput (withStreamInputAsync ctx1 stopCh) info input = some t →
          e = .setTag (.fornax id) (.parsed .streamInput) t) ∧
        (p.ParseStreamInput (withStreamInputAsync ctx1 stopCh) info input = none →
          e = .recovered)) ∧
    (∀ si, (run [0, 0] ⟨(waitAndFinish (withStreamInputAsync ctx1 stopCh) si).map .act,
        (run [0, 0, 0, 0, 0, 1, 1, 1, 1] (initMachine
          (OnStartWithStreamInput v l ctx (some info) input stopCh).body closed)).tasks,
        (run [0, 0, 0, 0, 0, 1, 1, 1, 1] (initMachine
          (OnStartWithStreamInput v l ctx (some info) input stopCh).body closed)).closed,
        []⟩).trace = [.wait stopCh, .finish si]) ∧
    (∀ op info2 sched, (run sched (initMachine
        ((OnStartWithStreamInput v l ctx (some info) input stopCh).body ++
          (endCall v l (withStreamInputAsync ctx1 stopCh) info2 op).body) closed)).trace.count
        (Act.close stopCh) ≤ 1) := by
  have hrun := inputTask_run v l p hp ctx info input stopCh closed id ctx1 hs
  refine ⟨⟨_, hrun, ?_, ?_⟩, ?_, ?_⟩
  · intro t ht; simp [afterParse, ht]
  · intro ht; simp [afterParse, ht]
  · intro si
    rw [hrun]
    simp [run, step, waitAndFinish, streamInputAsyncVal, withStreamInputAsync, enabled,
      continueAfter, closeEffect]
  · intro op info2 sched
    have hcall := OnStartWithStreamInput_spawn v l p hp ctx info input stopCh id ctx1 hs
    obtain ⟨w1, w2, w3⟩ := startEnd_wellFormed v l p ctx info input stopCh id ctx1 info2 op
      _ rfl
    rw [hcall]
    exact (run_invariant (GateInv stopCh _) (gateInv_step stopCh _) sched _
      (gateInv_init stopCh _ _ closed hfresh w1 w2 w3)).once

/-- The instance of C3 at the example tracer. -/
theorem C3_input_task_closes_gate_witness :
    (∃ e, run [0, 0, 0, 0, 0, 1, 1, 1, 1]
        (initMachine (OnStartWithStreamInput exVocab exTracer [] (some exInfo) ["a"] 0).body
          []) =
        ⟨[], [[]], [0],
          [.startSpan [] (derivedSpanName exInfo), .makeChan 0,
           .setTag (.fornax 0) .fornaxTags (setFornaxTags exVocab exTracer),
           .setTag (.fornax 0) .runInfo (setRunInfo exVocab exInfo),
           .parse .streamInput, e, .closeStream .streamInput, .close 0]⟩ ∧
        (∀ t, exParser.ParseStreamInput (withStreamInputAsync [.foreign 0 0] 0) exInfo ["a"]
            = some t → e = .setTag (.fornax 0) (.parsed .streamInput) t) ∧
        (exParser.ParseStreamInput (withStreamInputAsync [.foreign 0 0] 0) exInfo ["a"] = none →
          e = .recovered)) ∧
    (∀ si, (run [0, 0] ⟨(waitAndFinish (withStreamInputAsync [.foreign 0 0] 0) si).map .act,
        (run [0, 0, 0, 0, 0, 1, 1, 1, 1] (initMachine
          (OnStartWithStreamInput exVocab exTracer [] (some exInfo) ["a"] 0).body [])).tasks,
        (run [0, 0, 0, 0, 0, 1, 1, 1, 1] (initMachine
          (OnStartWithStreamInput exVocab exTracer [] (some exInfo) ["a"] 0).body [])).closed,
        []⟩).trace = [.wait 0, .finish si]) ∧
    (∀ op info2 sched, (run sched (initMachine
        ((OnStartWithStreamInput exVocab exTracer [] (some exInfo) ["a"] 0).body ++
          (endCall exVocab exTracer (withStreamInputAsync [.foreign 0 0] 0) info2 op).body)
        [])).trace.count (Act.close 0) ≤ 1) :=
  C3_input_task_closes_gate exVocab exTracer exParser rfl [] exInfo ["a"] 0 [] (by simp) 0
    [.foreign 0 0] rfl

theorem quietA_noClose (c : Nat) (t : List Act) (h : quietA c t = true) :
    absentA (fun a => decide (a = Act.close c)) t = true := by
  induction t with
  | nil => rfl
  | cons a r ih =>
    obtain ⟨_, h2, h3⟩ := quietA_head h
    have := ih h3
    simp only [absentA, List.all_cons, Bool.and_eq_true, Bool.not_eq_true',
      decide_eq_false_iff_not] at this ⊢
    exact ⟨h2, this⟩

theorem quiet_noClose (c : Nat) (p : List Instr) (h : quiet c p = true) :
    absent (fun a => decide (a = Act.close c)) p = true := by
  induction p with
  | nil => rfl
  | cons x r ih =>
    cases x with
    | act a =>
      obtain ⟨_, h2, h3⟩ := quiet_head h
      simp only [absent, Bool.and_eq_true, Bool.not_eq_true', decide_eq_false_iff_not]
      exact ⟨h2, ih h3⟩
    | go b =>
      simp only [quiet, Bool.and_eq_true] at h
      simp only [absent, Bool.and_eq_true]
      exact ⟨quietA_noClose c b h.1, ih h.2⟩

/-- A caller program whose every `Finish` waits on the open gate `c`, and in which
nothing closes `c`, never executes a `Finish`: the gate stays open for ever. -/
theorem blocked_run (c : Nat) (prog : List Instr) (closed : List Nat) (hc : c ∉ closed)
    (h1 : finGuarded c prog = true) (h2 : quiet c prog = true) (sched : List Nat) :
    c ∉ (run sched (initMachine prog closed)).closed ∧
    ∀ a ∈ (run sched (initMachine prog closed)).trace, isFinish a = false := by
  have hq : mainOk c prog = true := by
    have := mainOk_append c [] prog rfl h2
    simpa using this
  have hinv := run_invariant (GateInv c .logWarn) (gateInv_step c .logWarn) sched _
    (gateInv_init c .logWarn prog closed hc h1 hq (quiet_pend _ _ _ h2))
  have hno := absent_run (fun a => decide (a = Act.close c)) prog closed
    (quiet_noClose c prog h2) sched
  have hopen : c ∉ (run sched (initMachine prog closed)).closed := by
    intro hcl
    have := hno _ (hinv.closed_trace hcl)
    simp at this
  exact ⟨hopen, hinv.noFinish hopen⟩

/-- C5 (counterexample): the backend `exFailBackend` returns an error together
with a context of its own; `OnStart` and `OnStartWithStreamInput` hand back that
context, not the input context. -/
theorem C5_counterexample :
    (exFailTracer.tracer.StartSpan [] (derivedSpanName exInfo)).2.2 = some "unavailable" ∧
    (OnStart exVocab exFailTracer [] (some exInfo) "in").ret = some [.foreign 1 0] ∧
    (OnStart exVocab exFailTracer [] (some exInfo) "in").ret ≠ some [] ∧
    (OnStartWithStreamInput exVocab exFailTracer [] (some exInfo) ["in"] 0).ret
      ≠ some [] := by
  refine ⟨rfl, rfl, ?_, ?_⟩ <;> decide

/-- C5 (amended): when the backend's `StartSpan` returns an error, `OnStart` and
`OnStartWithStreamInput` return the context that `StartSpan` returned with the
error (the input context whenever the backend hands it back unchanged); their
only effects are the `StartSpan` call and a log line, so no tag is set, no parser
is called, no channel is made and no gate is stored. -/
theorem C5_start_error_returns_backend_ctx (v : Vocab) (l : einoTracer) (ctx : Ctx)
    (info : RunInfo) (input : Payload) (stream : Stream) (stopCh : Nat) (span : Option Span)
    (ctx1 : Ctx) (e : String)
    (hs : l.tracer.StartSpan ctx (derivedSpanName info) = (span, ctx1, some e)) :
    OnStart v l ctx (some info) input =
      ⟨some ctx1, [.act (.startSpan ctx (derivedSpanName info)), .act .logWarn]⟩ ∧
    OnStartWithStreamInput v l ctx (some info) stream stopCh =
      ⟨some ctx1, [.act (.startSpan ctx (derivedSpanName info)), .act .logWarn]⟩ ∧
    (ctx1 = ctx → (OnStart v l ctx (some info) input).ret = some ctx ∧
      (OnStartWithStreamInput v l ctx (some info) stream stopCh).ret = some ctx) := by
  unfold derivedSpanName at hs
  have h1 : OnStart v l ctx (some info) input =
      ⟨some ctx1, [.act (.startSpan ctx (derivedSpanName info)), .act .logWarn]⟩ := by
    simp [OnStart, hs, derivedSpanName]
  have h2 : OnStartWithStreamInput v l ctx (some info) stream stopCh =
      ⟨some ctx1, [.act (.startSpan ctx (derivedSpanName info)), .act .logWarn]⟩ := by
    simp [OnStartWithStreamInput, hs, derivedSpanName]
  refine ⟨h1, h2, ?_⟩
  intro hc
  rw [h1, h2, hc]
  exact ⟨rfl, rfl⟩

/-- The instance of the amended C5 at the failing backend. -/
theorem C5_start_error_returns_backend_ctx_witness :
    exFailTracer.tracer.StartSpan [] (derivedSpanName exInfo)
      = (none, [.foreign 1 0], some "unavailable") ∧
    OnStart exVocab exFailTracer [] (some exInfo) "in" =
      ⟨some [.foreign 1 0], [.act (.startSpan [] (derivedSpanName exInfo)), .act .logWarn]⟩ ∧
    OnStartWithStreamInput exVocab exFailTracer [] (some exInfo) ["in"] 0 =
      ⟨some [.foreign 1 0], [.act (.startSpan [] (derivedSpanName exInfo)), .act .logWarn]⟩ ∧
    ([.foreign 1 0] = ([] : Ctx) →
      (OnStart exVocab exFailTracer [] (some exInfo) "in").ret = some [] ∧
      (OnStartWithStreamInput exVocab exFailTracer [] (some exInfo) ["in"] 0).ret = some []) :=
  ⟨rfl, C5_start_error_returns_backend_ctx exVocab exFailTracer [] exInfo "in" ["in"] 0 none
    [.foreign 1 0] "unavailable" rfl⟩

/-- C6: with a null run descriptor each of the five callbacks returns the input
context and has no effect at all: no backend call, no tag, no finish, no parser
call, no goroutine. -/
theorem C6_null_descriptor_noop (v : Vocab) (l : einoTracer) (ctx : Ctx) (input : Payload)
    (output : Payload) (err : String) (inStream outStream : Stream) (stopCh : Nat) :
    OnStart v l ctx none input = ⟨some ctx, []⟩ ∧
    OnEnd l ctx none output = ⟨some ctx, []⟩ ∧
    OnError v l ctx none err = ⟨some ctx, []⟩ ∧
    OnStartWithStreamInput v l ctx none inStream stopCh = ⟨some ctx, []⟩ ∧
    OnEndWithStreamOutput l ctx none outStream = ⟨some ctx, []⟩ :=
  ⟨rfl, rfl, rfl, rfl, rfl⟩

/-- C8: when the backend finds no current span in the context, `OnEnd` and
`OnError` (with a non-null run descriptor) return the input context; their only
effects are the lookup and a log line: no `SetTag`, no `Finish`, no parser call
and no wait, whether or not the context carries a gate. -/
theorem C8_no_span_returns_ctx (v : Vocab) (l : einoTracer) (ctx : Ctx) (info : RunInfo)
    (output : Payload) (err : String) (hs : l.tracer.GetSpanFromContext ctx = none) :
    OnEnd l ctx (some info) output =
      ⟨some ctx, [.act (.getSpanFromContext ctx), .act .logWarn]⟩ ∧
    OnError v l ctx (some info) err =
      ⟨some ctx, [.act (.getSpanFromContext ctx), .act .logWarn]⟩ := by
  simp [OnEnd, OnError, hs]

/-- The instance of C8 at a context that carries a gate but no span. -/
theorem C8_no_span_returns_ctx_witness :
    exTracer.tracer.GetSpanFromContext [.streamInputAsync 3] = none ∧
    OnEnd exTracer [.streamInputAsync 3] (some exInfo) "out" =
      ⟨some [.streamInputAsync 3],
        [.act (.getSpanFromContext [.streamInputAsync 3]), .act .logWarn]⟩ ∧
    OnError exVocab exTracer [.streamInputAsync 3] (some exInfo) "rate limited" =
      ⟨some [.streamInputAsync 3],
        [.act (.getSpanFromContext [.streamInputAsync 3]), .act .logWarn]⟩ :=
  ⟨rfl, C8_no_span_returns_ctx exVocab exTracer [.streamInputAsync 3] exInfo "out"
    "rate limited" rfl⟩

/-- C9: for a non-null run descriptor the first effect of `OnStart` and of
`OnStartWithStreamInput` is the backend's `StartSpan` with the run's logical name
when it is non-empty and with the component kind otherwise; the descriptor
`{kind = "ChatModel", name = "", type = "generate"}` gives `"ChatModel"`. -/
theorem C9_span_name (v : Vocab) (l : einoTracer) (ctx : Ctx) (info : RunInfo)
    (input : Payload) (stream : Stream) (stopCh : Nat) :
    (OnStart v l ctx (some info) input).body.head? =
      some (.act (.startSpan ctx (if info.Name = "" then info.Component else info.Name))) ∧
    (OnStartWithStreamInput v l ctx (some info) stream stopCh).body.head? =
      some (.act (.startSpan ctx (if info.Name = "" then info.Component else info.Name))) ∧
    (OnStart exVocab exTracer [] (some ⟨"", "generate", "ChatModel"⟩) "hi").body.head? =
      some (.act (.startSpan [] "ChatModel")) := by
  refine ⟨?_, ?_, rfl⟩
  · simp only [OnStart]
    repeat' split
    all_goals simp
  · simp only [OnStartWithStreamInput]
    repeat' split
    all_goals simp

theorem tagKeys_spanTagsSet (t : Tags) (k v k1 : String) :
    k1 ∈ tagKeys (spanTagsSet t k v) ↔ k1 = k ∨ k1 ∈ tagKeys t := by
  induction t with
  | nil => simp [spanTagsSet, tagKeys]
  | cons x r ih =>
    obtain ⟨k0, v0⟩ := x
    unfold spanTagsSet
    by_cases h : k0 = k
    · subst h
      simp [tagKeys]
    · simp only [h, if_false]
      simp only [tagKeys, List.map_cons, List.mem_cons] at ih ⊢
      rw [ih]
      tauto

theorem tagKeys_mergeTags (acc t : Tags) (k : String) :
    k ∈ tagKeys (mergeTags acc t) ↔ k ∈ tagKeys acc ∨ k ∈ tagKeys t := by
  unfold mergeTags
  induction t generalizing acc with
  | nil => simp [tagKeys]
  | cons x r ih =>
    simp only [List.foldl_cons]
    rw [ih, tagKeys_spanTagsSet]
    simp only [tagKeys, List.map_cons, List.mem_cons]
    tauto

/-- The keys written by `setFornaxTags` and `setRunInfo`. -/
theorem tagKeys_setFornaxTags (v : Vocab) (l : einoTracer) (k : String) :
    k ∈ tagKeys (setFornaxTags v l) ↔ k = v.SpaceID ∨ k = v.FornaxSpaceID ∨ k = v.Runtime := by
  unfold setFornaxTags
  simp only [tagKeys_spanTagsSet]
  simp [tagKeys]
  tauto

theorem tagKeys_setRunInfo (v : Vocab) (info : RunInfo) (k : String) :
    k ∈ tagKeys (setRunInfo v info) ↔ k = v.SpanType ∨ k = v.customSpanTagKeyComponent ∨
      k = v.customSpanTagKeyName ∨ k = v.customSpanTagKeyType := by
  unfold setRunInfo
  simp only [tagKeys_spanTagsSet]
  simp [tagKeys]
  tauto

theorem tagValue_spanTagsSet (t : Tags) (k1 v1 k : String) :
    tagValue k (spanTagsSet t k1 v1) = if k1 = k then some v1 else tagValue k t := by
  induction t with
  | nil => simp [spanTagsSet, tagValue]
  | cons x r ih =>
    obtain ⟨k0, v0⟩ := x
    unfold spanTagsSet
    by_cases h : k0 = k1
    · subst h
      by_cases h2 : k0 = k <;> simp [tagValue, h2]
    · simp only [h, if_false, tagValue]
      rw [ih]
      by_cases h2 : k0 = k
      · have h3 : ¬ k1 = k := fun x => h (h2.trans x.symm)
        simp [h2, h3]
      · simp [h2]

theorem tagValue_mergeTags (acc t : Tags) (k : String) :
    tagValue k (mergeTags acc t) = lastWriteFrom k (tagValue k acc) t := by
  unfold mergeTags lastWriteFrom
  induction t generalizing acc with
  | nil => rfl
  | cons x r ih =>
    simp only [List.foldl_cons]
    rw [ih, tagValue_spanTagsSet]

theorem lastWriteFrom_init (k : String) (init : Option String) (ws : Tags) :
    lastWriteFrom k init ws =
      match lastWriteFrom k none ws with
      | some x => some x
      | none => init := by
  unfold lastWriteFrom
  induction ws using List.reverseRecOn with
  | nil => rfl
  | append_singleton r x ih =>
    simp only [List.foldl_append, List.foldl_cons, List.foldl_nil]
    by_cases h : x.1 = k
    · simp [h]
    · simp only [h, if_false]
      exact ih

theorem lastWriteFrom_append (k : String) (init : Option String) (a b : Tags) :
    lastWriteFrom k init (a ++ b) = lastWriteFrom k (lastWriteFrom k init a) b := by
  unfold lastWriteFrom
  rw [List.foldl_append]

theorem lastWriteFrom_absent (k : String) (init : Option String) (ws : Tags)
    (h : k ∉ tagKeys ws) : lastWriteFrom k init ws = init := by
  unfold lastWriteFrom
  induction ws generalizing init with
  | nil => rfl
  | cons x r ih =>
    simp only [tagKeys, List.map_cons, List.mem_cons, not_or] at h
    simp only [List.foldl_cons]
    have h1 : ¬ x.1 = k := fun e => h.1 e.symm
    simp only [h1, if_false]
    exact ih init (by simpa [tagKeys] using h.2)

theorem lastWriteFrom_nodup (k : String) (init : Option String) (t : Tags)
    (h : keysNodup t) :
    lastWriteFrom k init t =
      match tagValue k t with
      | some x => some x
      | none => init := by
  induction t generalizing init with
  | nil => rfl
  | cons x r ih =>
    obtain ⟨k0, v0⟩ := x
    have hnd : k0 ∉ tagKeys r ∧ keysNodup r := by
      simpa [keysNodup, tagKeys] using h
    by_cases h1 : k0 = k
    · subst h1
      have := lastWriteFrom_absent k0 (some v0) r hnd.1
      simp only [lastWriteFrom, List.foldl_cons, if_true] at this ⊢
      simp [tagValue, this]
    · have := ih (init) hnd.2
      simp only [lastWriteFrom, List.foldl_cons, h1, if_false] at this ⊢
      simp [tagValue, h1, this]

theorem keysNodup_spanTagsSet (t : Tags) (k v : String) (h : keysNodup t) :
    keysNodup (spanTagsSet t k v) := by
  induction t with
  | nil => simp [spanTagsSet, keysNodup, tagKeys]
  | cons x r ih =>
    obtain ⟨k0, v0⟩ := x
    have hnd : k0 ∉ tagKeys r ∧ keysNodup r := by
      simpa [keysNodup, tagKeys] using h
    unfold spanTagsSet
    by_cases h1 : k0 = k
    · subst h1
      simpa [keysNodup, tagKeys] using h
    · simp only [h1, if_false]
      have h2 := ih hnd.2
      have h3 : k0 ∉ tagKeys (spanTagsSet r k v) := by
        rw [tagKeys_spanTagsSet]
        exact fun x => x.elim h1 hnd.1
      simp only [keysNodup, tagKeys, List.map_cons, List.nodup_cons] at h2 ⊢
      exact ⟨by simpa [tagKeys] using h3, h2⟩

theorem keysNodup_mergeTags (acc t : Tags) (h : keysNodup acc) :
    keysNodup (mergeTags acc t) := by
  unfold mergeTags
  induction t generalizing acc with
  | nil => exact h
  | cons x r ih =>
    simp only [List.foldl_cons]
    exact ih _ (keysNodup_spanTagsSet acc x.1 x.2 h)

/-- Setting a tag set that was built by successive writes `ws` has the effect of
those writes, one after the other. -/
theorem tagValue_merge_built (acc ws : Tags) (k : String) :
    tagValue k (mergeTags acc (mergeTags [] ws)) = lastWriteFrom k (tagValue k acc) ws := by
  rw [tagValue_mergeTags, lastWriteFrom_nodup k _ _
    (keysNodup_mergeTags [] ws (by simp [keysNodup, tagKeys])),
    tagValue_mergeTags, lastWriteFrom_init k (tagValue k acc) ws]
  rfl

theorem tagValue_mem (t : Tags) (k val : String) (h : tagValue k t = some val) :
    (k, val) ∈ t := by
  induction t with
  | nil => simp [tagValue] at h
  | cons x r ih =>
    obtain ⟨k0, v0⟩ := x
    unfold tagValue at h
    by_cases h1 : k0 = k
    · simp only [h1, if_true, Option.some.injEq] at h
      simp [h1, h]
    · simp only [h1, if_false] at h
      exact List.mem_cons_of_mem _ (ih h)

/-- The tag set after the identity, runtime and run tags: the last write wins. -/
theorem tagValue_start (v : Vocab) (l : einoTracer) (info : RunInfo) (k : String) :
    tagValue k (mergeTags (mergeTags [] (setFornaxTags v l)) (setRunInfo v info)) =
      lastWrite k [(v.SpaceID, v.itoa l.identity), (v.FornaxSpaceID, v.itoa l.identity),
        (v.Runtime, v.runtimeJson), (v.SpanType, info.Component),
        (v.customSpanTagKeyComponent, info.Component), (v.customSpanTagKeyName, info.Name),
        (v.customSpanTagKeyType, info.Type_)] := by
  have hF : setFornaxTags v l = mergeTags [] [(v.SpaceID, v.itoa l.identity),
      (v.FornaxSpaceID, v.itoa l.identity), (v.Runtime, v.runtimeJson)] := rfl
  have hR : setRunInfo v info = mergeTags [] [(v.SpanType, info.Component),
      (v.customSpanTagKeyComponent, info.Component), (v.customSpanTagKeyName, info.Name),
      (v.customSpanTagKeyType, info.Type_)] := rfl
  rw [hF, hR, tagValue_merge_built, tagValue_merge_built]
  unfold lastWrite
  rw [show tagValue k ([] : Tags) = none from rfl, ← lastWriteFrom_append]
  rfl

/-- Method `OnStart` neither finishes a span, nor closes a channel, nor sets
input-stream tags. -/
theorem OnStart_wellFormed (v : Vocab) (l : einoTracer) (ctx : Ctx) (info : Option RunInfo)
    (input : Payload) (c : Nat) :
    finGuarded c (OnStart v l ctx info input).body = true ∧
    quiet c (OnStart v l ctx info input).body = true := by
  constructor
  · simp only [OnStart]
    repeat' split
    all_goals simp [finGuarded, isFinish]
  · simp only [OnStart]
    repeat' split
    all_goals simp [quiet, calmAct, isInputTag]

/-- The run of `OnStart` followed by `OnEnd` on the returned context, when the
span is started and found, the parser calls return and no open gate is in the
context: the caller runs through, `Finish` is its last effect and the only one,
and the tag set of the span is `startEndTags`. -/
theorem startEnd_trace (v : Vocab) (l : einoTracer) (ctx : Ctx) (info : RunInfo)
    (input output : Payload) (closed : List Nat) (id : Nat) (ctx1 : Ctx)
    (hs : l.tracer.StartSpan ctx (derivedSpanName info) = (some (.fornax id), ctx1, none))
    (hg : l.tracer.GetSpanFromContext ctx1 = some (.fornax id))
    (hp : ∀ p, l.parser = some p → (p.ParseInput ctx1 info input).isSome = true ∧
      (p.ParseOutput ctx1 info output).isSome = true)
    (hgate : ∀ g, streamInputAsyncVal ctx1 = some g → g ∈ closed) :
    (OnStart v l ctx (some info) input).ret = some ctx1 ∧
    ∃ n pre, run (List.replicate n 0) (initMachine
        ((OnStart v l ctx (some info) input).body ++
          (OnEnd l ctx1 (some info) output).body) closed) =
        ⟨[], [], closed, pre ++ [.finish (.fornax id)]⟩ ∧
      finishCount pre = 0 ∧
      spanTagSet (.fornax id) pre = startEndTags v l info ctx1 input output := by
  unfold derivedSpanName at hs
  rcases hpar : l.parser with _ | p
  · have h1 : OnStart v l ctx (some info) input = ⟨some ctx1,
        [.act (.startSpan ctx (derivedSpanName info)),
         .act (.setTag (.fornax id) .fornaxTags (setFornaxTags v l)),
         .act (.setTag (.fornax id) .runInfo (setRunInfo v info))]⟩ := by
      simp [OnStart, hs, hpar, derivedSpanName]
    have h2 : OnEnd l ctx1 (some info) output = ⟨some ctx1,
        .act (.getSpanFromContext ctx1) :: (waitAndFinish ctx1 (.fornax id)).map .act⟩ := by
      simp [OnEnd, hg, hpar]
    rw [h1, h2]
    refine ⟨rfl, ?_⟩
    rcases hgt : streamInputAsyncVal ctx1 with _ | g
    · refine ⟨5, [.startSpan ctx (derivedSpanName info),
        .setTag (.fornax id) .fornaxTags (setFornaxTags v l),
        .setTag (.fornax id) .runInfo (setRunInfo v info), .getSpanFromContext ctx1],
        ?_, ?_, ?_⟩
      · simp [run, step, initMachine, List.replicate, enabled, continueAfter, closeEffect,
          waitAndFinish, hgt]
      · simp [finishCount, isFinish]
      · simp [spanTagSet, applyTag, startEndTags, hpar]
    · have hcl := hgate g hgt
      refine ⟨6, [.startSpan ctx (derivedSpanName info),
        .setTag (.fornax id) .fornaxTags (setFornaxTags v l),
        .setTag (.fornax id) .runInfo (setRunInfo v info), .getSpanFromContext ctx1,
        .wait g], ?_, ?_, ?_⟩
      · simp [run, step, initMachine, List.replicate, enabled, continueAfter, closeEffect,
          waitAndFinish, hgt, hcl]
      · simp [finishCount, isFinish]
      · simp [spanTagSet, applyTag, startEndTags, hpar]
  · obtain ⟨hi, ho⟩ := hp p hpar
    obtain ⟨ti, hti⟩ := Option.isSome_iff_exists.1 hi
    obtain ⟨tout, htout⟩ := Option.isSome_iff_exists.1 ho
    have h1 : OnStart v l ctx (some info) input = ⟨some ctx1,
        [.act (.startSpan ctx (derivedSpanName info)),
         .act (.setTag (.fornax id) .fornaxTags (setFornaxTags v l)),
         .act (.setTag (.fornax id) .runInfo (setRunInfo v info)),
         .act (.parse .input), .act (.setTag (.fornax id) (.parsed .input) ti)]⟩ := by
      simp [OnStart, hs, hpar, hti, derivedSpanName]
    have h2 : OnEnd l ctx1 (some info) output = ⟨some ctx1,
        [.act (.getSpanFromContext ctx1), .act (.parse .output),
         .act (.setTag (.fornax id) (.parsed .output) tout)] ++
          (waitAndFinish ctx1 (.fornax id)).map .act⟩ := by
      simp [OnEnd, hg, hpar, htout]
    rw [h1, h2]
    refine ⟨rfl, ?_⟩
    rcases hgt : streamInputAsyncVal ctx1 with _ | g
    · refine ⟨9, [.startSpan ctx (derivedSpanName info),
          .setTag (.fornax id) .fornaxTags (setFornaxTags v l),
          .setTag (.fornax id) .runInfo (setRunInfo v info),
          .parse .input, .setTag (.fornax id) (.parsed .input) ti,
          .getSpanFromContext ctx1, .parse .output,
          .setTag (.fornax id) (.parsed .output) tout], ?_, ?_, ?_⟩
      · simp [run, step, initMachine, List.replicate, enabled, continueAfter, closeEffect,
          waitAndFinish, hgt]
      · simp [finishCount, isFinish]
      · simp [spanTagSet, applyTag, startEndTags, hpar, hti, htout]
    · have hcl := hgate g hgt
      refine ⟨10, [.startSpan ctx (derivedSpanName info),
          .setTag (.fornax id) .fornaxTags (setFornaxTags v l),
          .setTag (.fornax id) .runInfo (setRunInfo v info),
          .parse .input, .setTag (.fornax id) (.parsed .input) ti,
          .getSpanFromContext ctx1, .parse .output,
          .setTag (.fornax id) (.parsed .output) tout, .wait g], ?_, ?_, ?_⟩
      · simp [run, step, initMachine, List.replicate, enabled, continueAfter, closeEffect,
          waitAndFinish, hgt, hcl]
      · simp [finishCount, isFinish]
      · simp [spanTagSet, applyTag, startEndTags, hpar, hti, htout]

/-- C7 (counterexample): three runs started via `OnStart` whose span start
succeeds with a span of the concrete type.  First, the parser's `ParseOutput`
returns a tag under the key of the logical name: `OnEnd` finishes the span, but
the tag set then holds the parser's value under that key and no longer the run's
logical name.  Second, `ParseOutput` panics: `OnEnd` is left before `Finish` and
no schedule finishes the span.  Third, the context handed to `OnStart` carries a
gate that is still open: `OnEnd` stays blocked on it and no schedule finishes
the span. -/
theorem C7_counterexample :
    (exOverwriteTracer.tracer.StartSpan [] (derivedSpanName exNamedInfo)
        = (some (.fornax 0), [.foreign 0 0], none) ∧
      ∃ pre, run (List.replicate 9 0) (initMachine
          ((OnStart exVocab exOverwriteTracer [] (some exNamedInfo) "in").body ++
            (OnEnd exOverwriteTracer [.foreign 0 0] (some exNamedInfo) "out").body) []) =
          ⟨[], [], [], pre ++ [.finish (.fornax 0)]⟩ ∧
        spanTagSet (.fornax 0) pre =
          [("space_id", "7"), ("fornax_space_id", "7"), ("runtime", "runtime-json"),
           ("span_type", "ChatModel"), ("component", "ChatModel"), ("name", "shadow"),
           ("type", "generate")] ∧
        setRunInfo exVocab exNamedInfo =
          [("span_type", "ChatModel"), ("component", "ChatModel"), ("name", "myrun"),
           ("type", "generate")] ∧
        ("name", "myrun") ∉ spanTagSet (.fornax 0) pre) ∧
    (exPanicOutputTracer.tracer.StartSpan [] (derivedSpanName exInfo)
        = (some (.fornax 0), [.foreign 0 0], none) ∧
      (OnStart exVocab exPanicOutputTracer [] (some exInfo) "in").ret
        = some [.foreign 0 0] ∧
      (OnEnd exPanicOutputTracer [.foreign 0 0] (some exInfo) "out") =
        ⟨none, [.act (.getSpanFromContext [.foreign 0 0]), .act (.parse .output),
          .act .panicked]⟩ ∧
      ∀ sched, finishCount (run sched (initMachine
        ((OnStart exVocab exPanicOutputTracer [] (some exInfo) "in").body ++
          (OnEnd exPanicOutputTracer [.foreign 0 0] (some exInfo) "out").body) [])).trace
        = 0) ∧
    (exTracer.tracer.StartSpan [.streamInputAsync 5] (derivedSpanName exInfo)
        = (some (.fornax 1), [.foreign 0 1, .streamInputAsync 5], none) ∧
      (OnStart exVocab exTracer [.streamInputAsync 5] (some exInfo) "in").ret
        = some [.foreign 0 1, .streamInputAsync 5] ∧
      ∀ sched, finishCount (run sched (initMachine
        ((OnStart exVocab exTracer [.streamInputAsync 5] (some exInfo) "in").body ++
          (OnEnd exTracer [.foreign 0 1, .streamInputAsync 5] (some exInfo) "out").body)
        [])).trace = 0) := by
  refine ⟨⟨rfl, ?_⟩, ⟨rfl, rfl, rfl, ?_⟩, ⟨rfl, rfl, ?_⟩⟩
  · refine ⟨[.startSpan [] "myrun",
      .setTag (.fornax 0) .fornaxTags (setFornaxTags exVocab exOverwriteTracer),
      .setTag (.fornax 0) .runInfo (setRunInfo exVocab exNamedInfo),
      .parse .input, .setTag (.fornax 0) (.parsed .input) [],
      .getSpanFromContext [.foreign 0 0], .parse .output,
      .setTag (.fornax 0) (.parsed .output) [("name", "shadow")]], rfl, ?_⟩
    have hts : spanTagSet (.fornax 0) [.startSpan [] "myrun",
        .setTag (.fornax 0) .fornaxTags (setFornaxTags exVocab exOverwriteTracer),
        .setTag (.fornax 0) .runInfo (setRunInfo exVocab exNamedInfo),
        .parse .input, .setTag (.fornax 0) (.parsed .input) [],
        .getSpanFromContext [.foreign 0 0], .parse .output,
        .setTag (.fornax 0) (.parsed .output) [("name", "shadow")]] =
        [("space_id", "7"), ("fornax_space_id", "7"), ("runtime", "runtime-json"),
         ("span_type", "ChatModel"), ("component", "ChatModel"), ("name", "shadow"),
         ("type", "generate")] := by decide
    refine ⟨hts, by decide, ?_⟩
    rw [hts]
    decide
  · intro sched
    unfold finishCount
    rw [List.countP_eq_zero]
    intro a ha
    have := absent_run isFinish _ [] (by rfl) sched a ha
    simp [this]
  · intro sched
    have hw := OnStart_wellFormed exVocab exTracer [.streamInputAsync 5] (some exInfo) "in" 5
    have h := blocked_run 5 _ [] (by simp)
      (finGuarded_append _ _ _ hw.1
        (endCall_finGuarded exVocab exTracer [.foreign 0 1, .streamInputAsync 5]
          (some exInfo) (.onEnd "out") 5 rfl))
      (quiet_append _ _ _ hw.2
        (endCall_quiet exVocab exTracer [.foreign 0 1, .streamInputAsync 5]
          (some exInfo) (.onEnd "out") 5)) sched
    unfold finishCount
    rw [List.countP_eq_zero]
    intro a ha
    simp [h.2 a ha]

/-- C7 (amended): for a run started via `OnStart` whose span start succeeds
(`StartSpan` returns no error and a span of the concrete type), whose parser
calls return and whose context carries no gate that is still open, the subsequent
`OnEnd` on the returned context, in which the backend finds that span, runs
through; the trace then holds exactly one `Finish`, of that span, as its last
effect.  At that point the tag set of the span holds, under every key, the value
written last in the sequence: identity and runtime tags, run tags (component
kind, logical name, execution type), then, with a parser configured, the tags
returned by `ParseInput` and those returned by `ParseOutput`.  So it contains every
identity, runtime and run tag whose key is not written again later, and an entry
for each of their keys and for every key the parser returns. -/
theorem C7_start_end_finishes_once (v : Vocab) (l : einoTracer) (ctx : Ctx) (info : RunInfo)
    (input output : Payload) (closed : List Nat) (id : Nat) (ctx1 : Ctx)
    (hs : l.tracer.StartSpan ctx (derivedSpanName info) = (some (.fornax id), ctx1, none))
    (hg : l.tracer.GetSpanFromContext ctx1 = some (.fornax id))
    (hp : ∀ p, l.parser = some p → (p.ParseInput ctx1 info input).isSome = true ∧
      (p.ParseOutput ctx1 info output).isSome = true)
    (hgate : ∀ g, streamInputAsyncVal ctx1 = some g → g ∈ closed) :
    (OnStart v l ctx (some info) input).ret = some ctx1 ∧
    ∃ n pre, run (List.replicate n 0) (initMachine
        ((OnStart v l ctx (some info) input).body ++
          (OnEnd l ctx1 (some info) output).body) closed) =
        ⟨[], [], closed, pre ++ [.finish (.fornax id)]⟩ ∧
      finishCount pre = 0 ∧
      (l.parser = none → ∀ k, tagValue k (spanTagSet (.fornax id) pre) =
        lastWrite k [(v.SpaceID, v.itoa l.identity), (v.FornaxSpaceID, v.itoa l.identity),
          (v.Runtime, v.runtimeJson), (v.SpanType, info.Component),
          (v.customSpanTagKeyComponent, info.Component),
          (v.customSpanTagKeyName, info.Name), (v.customSpanTagKeyType, info.Type_)]) ∧
      (∀ p ti tout, l.parser = some p → p.ParseInput ctx1 info input = some ti →
        p.ParseOutput ctx1 info output = some tout →
        ∀ k, tagValue k (spanTagSet (.fornax id) pre) =
          lastWrite k ([(v.SpaceID, v.itoa l.identity), (v.FornaxSpaceID, v.itoa l.identity),
            (v.Runtime, v.runtimeJson), (v.SpanType, info.Component),
            (v.customSpanTagKeyComponent, info.Component),
            (v.customSpanTagKeyName, info.Name), (v.customSpanTagKeyType, info.Type_)]
            ++ ti ++ tout)) ∧
      (∀ k val, tagValue k (spanTagSet (.fornax id) pre) = some val →
        (k, val) ∈ spanTagSet (.fornax id) pre) ∧
      (∀ k ∈ startKeys v, k ∈ tagKeys (spanTagSet (.fornax id) pre)) ∧
      (∀ p ti tout, l.parser = some p → p.ParseInput ctx1 info input = some ti →
        p.ParseOutput ctx1 info output = some tout →
        ∀ k, k ∈ tagKeys ti ∨ k ∈ tagKeys tout →
          k ∈ tagKeys (spanTagSet (.fornax id) pre)) := by
  obtain ⟨hret, n, pre, hrun, hcount, hts⟩ :=
    startEnd_trace v l ctx info input output closed id ctx1 hs hg hp hgate
  have hkeys : ∀ k ∈ startKeys v,
      k ∈ tagKeys (setFornaxTags v l) ∨ k ∈ tagKeys (setRunInfo v info) := by
    intro k hk
    rw [tagKeys_setFornaxTags, tagKeys_setRunInfo]
    simp only [startKeys, List.mem_cons, List.mem_singleton, List.not_mem_nil, or_false] at hk
    tauto
  refine ⟨hret, n, pre, hrun, hcount, ?_, ?_, ?_, ?_, ?_⟩
  · intro hpar k
    rw [hts]
    simp only [startEndTags, hpar]
    exact tagValue_start v l info k
  · intro p ti tout hpar hti htout k
    rw [hts]
    simp only [startEndTags, hpar, hti, htout, Option.getD_some]
    rw [tagValue_mergeTags, tagValue_mergeTags, tagValue_start]
    unfold lastWrite
    rw [lastWriteFrom_append, lastWriteFrom_append]
  · intro k val h
    exact tagValue_mem _ k val h
  · intro k hk
    rw [hts]
    rcases hpar : l.parser with _ | p
    · simp only [startEndTags, hpar, tagKeys_mergeTags]
      rcases hkeys k hk with h | h
      · exact Or.inl (Or.inr h)
      · exact Or.inr h
    · simp only [startEndTags, hpar, tagKeys_mergeTags]
      rcases hkeys k hk with h | h
      · exact Or.inl (Or.inl (Or.inl (Or.inr h)))
      · exact Or.inl (Or.inl (Or.inr h))
  · intro p ti tout hpar hti htout k hk
    rw [hts]
    simp only [startEndTags, hpar, hti, htout, Option.getD_some, tagKeys_mergeTags]
    tauto

/-- The instance of the amended C7 at the example tracer: an empty context, no
gate, the parser returning one tag per phase. -/
theorem C7_start_end_finishes_once_witness :
    exTracer.tracer.StartSpan [] (derivedSpanName exInfo)
      = (some (.fornax 0), [.foreign 0 0], none) ∧
    exTracer.tracer.GetSpanFromContext [.foreign 0 0] = some (.fornax 0) ∧
    (OnStart exVocab exTracer [] (some exInfo) "in").ret = some [.foreign 0 0] ∧
    ∃ n pre, run (List.replicate n 0) (initMachine
        ((OnStart exVocab exTracer [] (some exInfo) "in").body ++
          (OnEnd exTracer [.foreign 0 0] (some exInfo) "out").body) []) =
        ⟨[], [], [], pre ++ [.finish (.fornax 0)]⟩ ∧
      finishCount pre = 0 ∧
      (exTracer.parser = none → ∀ k, tagValue k (spanTagSet (.fornax 0) pre) =
        lastWrite k [(exVocab.SpaceID, exVocab.itoa exTracer.identity),
          (exVocab.FornaxSpaceID, exVocab.itoa exTracer.identity),
          (exVocab.Runtime, exVocab.runtimeJson), (exVocab.SpanType, exInfo.Component),
          (exVocab.customSpanTagKeyComponent, exInfo.Component),
          (exVocab.customSpanTagKeyName, exInfo.Name),
          (exVocab.customSpanTagKeyType, exInfo.Type_)]) ∧
      (∀ p ti tout, exTracer.parser = some p →
        p.ParseInput [.foreign 0 0] exInfo "in" = some ti →
        p.ParseOutput [.foreign 0 0] exInfo "out" = some tout →
        ∀ k, tagValue k (spanTagSet (.fornax 0) pre) =
          lastWrite k ([(exVocab.SpaceID, exVocab.itoa exTracer.identity),
            (exVocab.FornaxSpaceID, exVocab.itoa exTracer.identity),
            (exVocab.Runtime, exVocab.runtimeJson), (exVocab.SpanType, exInfo.Component),
            (exVocab.customSpanTagKeyComponent, exInfo.Component),
            (exVocab.customSpanTagKeyName, exInfo.Name),
            (exVocab.customSpanTagKeyType, exInfo.Type_)] ++ ti ++ tout)) ∧
      (∀ k val, tagValue k (spanTagSet (.fornax 0) pre) = some val →
        (k, val) ∈ spanTagSet (.fornax 0) pre) ∧
      (∀ k ∈ startKeys exVocab, k ∈ tagKeys (spanTagSet (.fornax 0) pre)) ∧
      (∀ p ti tout, exTracer.parser = some p →
        p.ParseInput [.foreign 0 0] exInfo "in" = some ti →
        p.ParseOutput [.foreign 0 0] exInfo "out" = some tout →
        ∀ k, k ∈ tagKeys ti ∨ k ∈ tagKeys tout →
          k ∈ tagKeys (spanTagSet (.fornax 0) pre)) :=
  ⟨rfl, rfl, C7_start_end_finishes_once exVocab exTracer [] exInfo "in" "out" [] 0
    [.foreign 0 0] rfl rfl
    (by
      intro p hp
      have : exParser = p := by simpa [exTracer] using hp
      subst this
      exact ⟨rfl, rfl⟩)
    (by intro g hg; simp [streamInputAsyncVal] at hg)⟩

end Fornax

/-! # Theorems about the indexer -/

namespace Qdrant

theorem slice_eq {α : Type} (xs : List α) (start b : Nat) (hb : 0 < b) :
    slice xs start (if start + b > xs.length then xs.length else start + b)
      = (xs.drop start).take b := by
  unfold slice
  rw [List.drop_take]
  split
  · rename_i h
    rw [List.take_of_length_le (by simp), List.take_of_length_le (by simp; omega)]
  · rename_i h
    congr 1
    omega

theorem ceil_step (n start b : Nat) (hb : 0 < b) (hs : start < n) :
    (n - start + b - 1) / b = (n - (start + b) + b - 1) / b + 1 := by
  by_cases h : start + b ≤ n
  · have : n - start + b - 1 = (n - (start + b) + b - 1) + b := by omega
    rw [this, Nat.add_div_right _ hb]
  · have h1 : n - (start + b) = 0 := by omega
    rw [h1]
    have h2 : (0 + b - 1) / b = 0 := Nat.div_eq_of_lt (by omega)
    rw [h2]
    have h3 : n - start + b - 1 = (n - start - 1) + b := by omega
    rw [h3, Nat.add_div_right _ hb, Nat.div_eq_of_lt (by omega)]

/-- What the batching loop does from position `start` on. -/
theorem upsertLoop_spec {σ : Type} (i : Indexer σ) (points : List PointStruct) (b : Nat)
    (hb : 0 < b) : ∀ (fuel start : Nat) (st : σ) (log : UpsertLog),
    points.length - start < fuel →
    ∃ st1 new e, upsertLoop i points b fuel start st log = some (st1, log ++ new, e) ∧
      Threaded i.Client i.Collection st new st1 ∧
      (∀ k x, new[k]? = some x → x.1 = (points.drop (start + k * b)).take b) ∧
      (∀ x ∈ new, x.1 ≠ [] ∧ x.1.length ≤ b) ∧
      (∃ rest, (new.map (fun x => x.1)).flatten ++ rest = points.drop start ∧
        (e = none → rest = [])) ∧
      (∀ pre x err post, new = pre ++ (x, some err) :: post → post = [] ∧ e = some err) ∧
      (e = none → (∀ x ∈ new, x.2 = none) ∧
        new.length = (points.length - start + b - 1) / b) ∧
      ((∀ x ∈ new, x.2 = none) → e = none) := by
  intro fuel
  induction fuel with
  | zero => intro start st log h; omega
  | succ fuel ih =>
    intro start st log hfuel
    unfold upsertLoop
    by_cases hs : start < points.length
    · simp only [hs, if_true]
      rw [slice_eq points start b hb]
      have hne : (points.drop start).take b ≠ [] := by
        intro h
        have h0 : ((points.drop start).take b).length = min b (points.length - start) := by
          rw [List.length_take, List.length_drop]
        rw [h, List.length_nil] at h0
        rcases Nat.le_total b (points.length - start) with hm | hm
        · rw [Nat.min_eq_left hm] at h0; omega
        · rw [Nat.min_eq_right hm] at h0; omega
      have hle : ((points.drop start).take b).length ≤ b := by simp
      rcases hu : i.Client st i.Collection ((points.drop start).take b) with ⟨st1, _ | err⟩
      · simp only
        obtain ⟨st2, new, e, h1, hth, hidx, h2, ⟨rest, h3, h3b⟩, h4, h5, h6⟩ :=
          ih (start + b) st1 (log ++ [((points.drop start).take b, none)]) (by omega)
        refine ⟨st2, ((points.drop start).take b, none) :: new, e, ?_, ?_, ?_, ?_, ?_, ?_,
          ?_, ?_⟩
        · rw [h1]; simp
        · show (i.Client st i.Collection ((points.drop start).take b)).2 = none ∧
            Threaded i.Client i.Collection
              (i.Client st i.Collection ((points.drop start).take b)).1 new st2
          rw [hu]
          exact ⟨rfl, hth⟩
        · intro k x hk
          cases k with
          | zero =>
            simp only [List.getElem?_cons_zero, Option.some.injEq] at hk
            rw [← hk]; simp
          | succ k =>
            simp only [List.getElem?_cons_succ] at hk
            rw [hidx k x hk]
            congr 2
            rw [Nat.succ_mul]; omega
        · intro x hx
          simp only [List.mem_cons] at hx
          rcases hx with hx | hx
          · rw [hx]; exact ⟨hne, hle⟩
          · exact h2 x hx
        · refine ⟨rest, ?_, h3b⟩
          simp only [List.map_cons, List.flatten_cons, List.append_assoc]
          rw [h3, ← List.drop_drop, List.take_append_drop]
        · intro pre x err post heq
          cases pre with
          | nil => simp at heq
          | cons y pre1 =>
            simp only [List.cons_append, List.cons.injEq] at heq
            exact h4 pre1 x err post heq.2
        · intro he
          obtain ⟨g1, g2⟩ := h5 he
          refine ⟨?_, ?_⟩
          · intro x hx
            simp only [List.mem_cons] at hx
            rcases hx with hx | hx
            · rw [hx]
            · exact g1 x hx
          · simp only [List.length_cons]
            rw [g2, ceil_step points.length start b hb hs]
        · intro hall
          apply h6
          intro x hx
          exact hall x (List.mem_cons_of_mem _ hx)
      · simp only
        refine ⟨st1, [((points.drop start).take b, some err)], some err, rfl, ?_, ?_, ?_,
          ?_, ?_, ?_, ?_⟩
        · show (i.Client st i.Collection ((points.drop start).take b)).2 = some err ∧
            st1 = (i.Client st i.Collection ((points.drop start).take b)).1
          rw [hu]
          exact ⟨rfl, rfl⟩
        · intro k x hk
          cases k with
          | zero =>
            simp only [List.getElem?_cons_zero, Option.some.injEq] at hk
            rw [← hk]; simp
          | succ k => simp at hk
        · intro x hx
          simp only [List.mem_singleton] at hx
          rw [hx]; exact ⟨hne, hle⟩
        · exact ⟨(points.drop start).drop b, by simp, by simp⟩
        · intro pre x err1 post heq
          cases pre with
          | nil =>
            simp only [List.nil_append, List.cons.injEq, Prod.mk.injEq,
              Option.some.injEq] at heq
            exact ⟨heq.2.symm, by rw [heq.1.2]⟩
          | cons y pre1 =>
            simp only [List.cons_append, List.cons.injEq] at heq
            have := congrArg List.length heq.2
            simp at this
            omega
        · intro he; simp at he
        · intro hall
          have := hall _ (List.mem_singleton_self _)
          simp at this
    · simp only [hs, if_false]
      refine ⟨st, [], none, by simp, rfl, by simp, by simp, ⟨[], ?_, fun _ => rfl⟩, ?_, ?_,
        fun _ => rfl⟩
      · simp
        omega
      · intro pre x err post heq
        simp at heq
      · intro _
        refine ⟨by simp, ?_⟩
        have : points.length - start = 0 := by omega
        rw [this]
        simp
        exact (Nat.div_eq_of_lt (by omega)).symm

/-- When every payload conversion and every `NewValueMap` call succeeds, the loop
builds the points in document order. -/
theorem buildPoints_expected {σ : Type} (lib : Lib) (i : Indexer σ) :
    ∀ (docs : List Document) (vectors : List (List Int)) (payloads : List Payload)
      (values : List ValueMap),
      docs.map i.DocumentToPayload = payloads.map Except.ok →
      payloads.map lib.NewValueMap = values.map some →
      vectors.length = docs.length →
      buildPoints lib i docs vectors = .points (expectedPoints lib docs vectors values) ∧
      (expectedPoints lib docs vectors values).map (fun pt => pt.Id)
        = docs.map (fun d => d.ID) := by
  intro docs
  induction docs with
  | nil =>
    intro vectors payloads values _ _ _
    refine ⟨rfl, ?_⟩
    cases vectors <;> rfl
  | cons doc rest ih =>
    intro vectors payloads values hp hv hl
    cases payloads with
    | nil => simp at hp
    | cons pl pls =>
      cases values with
      | nil => simp at hv
      | cons vm vms =>
        cases vectors with
        | nil => simp at hl
        | cons vec vecs =>
          simp only [List.map_cons, List.cons.injEq] at hp hv
          simp only [List.length_cons, Nat.add_right_cancel_iff] at hl
          obtain ⟨g1, g2⟩ := ih vecs pls vms hp.2 hv.2 hl
          constructor
          · unfold buildPoints
            rw [hp.1]
            simp only
            rw [hv.1]
            simp only [List.tail_cons, g1, List.headD_cons]
            rfl
          · simp only [expectedPoints, List.map_cons, List.cons.injEq, true_and]
            exact g2

theorem effectiveBatchSize_pos (n : Int) : 0 < effectiveBatchSize n := by
  unfold effectiveBatchSize
  split
  · decide
  · omega

/-- The batch size of an indexer built by `NewIndexer`. -/
theorem newIndexer_batchSize {σ : Type} (config : IndexerConfig σ) (ix : Indexer σ)
    (hnew : NewIndexer config = .ok ix) :
    effectiveBatchSize ix.BatchSize = effectiveBatchSize config.BatchSize := by
  unfold NewIndexer at hnew
  cases hc : config.Client with
  | none => rw [hc] at hnew; simp at hnew
  | some c =>
    rw [hc] at hnew
    cases he : config.Embedding with
    | none => rw [he] at hnew; simp at hnew
    | some e =>
      rw [he] at hnew
      simp only [Except.ok.injEq] at hnew
      rw [← hnew]
      simp only
      unfold effectiveBatchSize
      by_cases h0 : config.BatchSize = 0
      · simp [h0]
      · simp [h0]

/-- A client that never fails leaves no failed entry in a log it answered. -/
theorem threaded_noFail {σ : Type} (client : UpsertFn σ) (coll : String)
    (h : ∀ st batch, (client st coll batch).2 = none) :
    ∀ (log : UpsertLog) (st last : σ), Threaded client coll st log last →
      ∀ x ∈ log, x.2 = none := by
  intro log
  induction log with
  | nil => intro st last _ x hx; simp at hx
  | cons y rest ih =>
    intro st last ht x hx
    obtain ⟨batch, e⟩ := y
    obtain ⟨h1, h2⟩ := ht
    simp only [List.mem_cons] at hx
    rcases hx with hx | hx
    · rw [hx, ← h1]; exact h st batch
    · exact ih _ last h2 x hx

/-- C10 (counterexample): two calls of `Store` in which the embedding and every
`DocumentToPayload` return without error and no `Upsert` fails, and which issue
no `Upsert` at all.  In the first the metadata of a document holds a value that
`qdrant.NewValueMap` does not support: a panic leaves `Store`.  In the second the
embedder returns fewer vectors than documents: `Store` returns an error. -/
theorem C10_counterexample :
    (exIndexer.Embedding (exBadDocs.map (fun d => d.Content)) = .ok [[1, 2], [1, 2]] ∧
      exBadDocs.map exIndexer.DocumentToPayload =
        [.ok [("id", "a"), ("content", "alpha")],
         .ok [("id", "b"), ("content", "beta"), ("conn", "chan")]] ∧
      exLib.NewValueMap [("id", "b"), ("content", "beta"), ("conn", "chan")] = none ∧
      Store exLib exIndexer [] exBadDocs = .panicked) ∧
    (exShortIndexer.Embedding (exDocs.map (fun d => d.Content)) = .ok [] ∧
      Store exLib exShortIndexer [] exDocs = .returned ⟨none,
        some ("[Qdrant.Store] embedding result length mismatch: want " ++ toString 3 ++
          ", got " ++ toString 0), [], []⟩) := by
  refine ⟨⟨rfl, rfl, by decide, ?_⟩, rfl, ?_⟩
  · have h : buildPoints exLib exIndexer exBadDocs [[1, 2], [1, 2]] = .panicked := by
      decide
    simp [Store, exBadDocs, exIndexer, exEmbed] at h ⊢
    simp [exBadDocs, exIndexer, h]
  · simp [Store, exDocs, exShortIndexer, exShortEmbed]

/-- C10 (amended): for an indexer built by `NewIndexer` and a non-empty document
list of length `n`, with `b` the effective batch size (10 when the configured
`BatchSize` is zero or negative, `BatchSize` otherwise), when the embedding
returns without error exactly one vector per document, `DocumentToPayload`
succeeds for every document and `qdrant.NewValueMap` accepts every payload,
`Store` returns.  The log of its `Upsert` calls is what the client answered to
the batches in turn; batch number `k` is the slice of at most `b` points from
position `k * b` of the points in document order, so every batch is non-empty,
of size at most `b`, and the batches are an initial part of the points.  An
`Upsert` that fails is the last one issued, and `Store` then returns an error and
no ids.  When no `Upsert` fails there are exactly `ceil(n/b)` calls, the batches
concatenated are the points, and `Store` returns the ids in document order. -/
theorem C10_store_batches {σ : Type} (lib : Lib) (config : IndexerConfig σ) (ix : Indexer σ)
    (hnew : NewIndexer config = .ok ix) (st : σ) (docs : List Document) (hne : docs ≠ [])
    (vectors : List (List Int))
    (hemb : ix.Embedding (docs.map (fun d => d.Content)) = .ok vectors)
    (hlen : vectors.length = docs.length) (payloads : List Payload)
    (hpay : docs.map ix.DocumentToPayload = payloads.map Except.ok)
    (values : List ValueMap) (hval : payloads.map lib.NewValueMap = values.map some) :
    ((effectiveBatchSize config.BatchSize : Nat) : Int) =
      (if config.BatchSize ≤ 0 then 10 else config.BatchSize) ∧
    (expectedPoints lib docs vectors values).map (fun pt => pt.Id)
      = docs.map (fun d => d.ID) ∧
    ∃ r, Store lib ix st docs = .returned r ∧
      Threaded ix.Client ix.Collection st r.upserts r.client ∧
      (∀ k x, r.upserts[k]? = some x →
        x.1 = ((expectedPoints lib docs vectors values).drop
          (k * effectiveBatchSize config.BatchSize)).take
            (effectiveBatchSize config.BatchSize)) ∧
      (∀ x ∈ r.upserts, x.1 ≠ [] ∧ x.1.length ≤ effectiveBatchSize config.BatchSize) ∧
      (∃ rest, (r.upserts.map (fun x => x.1)).flatten ++ rest
        = expectedPoints lib docs vectors values) ∧
      (∀ pre x err post, r.upserts = pre ++ (x, some err) :: post →
        post = [] ∧ r.ids = none ∧ r.err = some ("[Qdrant.Store] Upsert failed: " ++ err)) ∧
      ((∀ x ∈ r.upserts, x.2 = none) →
        r.upserts.length =
          (docs.length + effectiveBatchSize config.BatchSize - 1) /
            effectiveBatchSize config.BatchSize ∧
        (r.upserts.map (fun x => x.1)).flatten = expectedPoints lib docs vectors values ∧
        r.ids = some (docs.map (fun d => d.ID)) ∧ r.err = none) ∧
      ((∀ st0 batch, (ix.Client st0 ix.Collection batch).2 = none) →
        ∀ x ∈ r.upserts, x.2 = none) := by
  obtain ⟨hpts, hids⟩ := buildPoints_expected lib ix docs vectors payloads values hpay hval hlen
  have hplen : (expectedPoints lib docs vectors values).length = docs.length := by
    have := congrArg List.length hids
    simpa using this
  refine ⟨?_, hids, ?_⟩
  · unfold effectiveBatchSize
    split
    · rfl
    · rename_i h
      omega
  · have hb := effectiveBatchSize_pos config.BatchSize
    obtain ⟨st1, new, e, h1, hth, hidx, h2, ⟨rest, h3, h3b⟩, h4, h5, h6⟩ :=
      upsertLoop_spec ix (expectedPoints lib docs vectors values)
        (effectiveBatchSize config.BatchSize) hb
        ((expectedPoints lib docs vectors values).length + 1) 0 st [] (by omega)
    have hdl : ¬ docs.length = 0 := by
      intro h
      exact hne (List.length_eq_zero.1 h)
    simp only [List.nil_append, List.drop_zero, Nat.sub_zero, Nat.zero_add] at h1 h3 h5 hidx
    cases e with
    | none =>
      refine ⟨⟨some (docs.map (fun d => d.ID)), none, st1, new⟩, ?_, hth, hidx, h2,
        ⟨rest, h3⟩, ?_, ?_, ?_⟩
      · simp [Store, hdl, hemb, hlen, hpts, newIndexer_batchSize config ix hnew, h1]
      · intro pre x err post heq
        have := (h4 pre x err post heq).2
        simp at this
      · intro _
        obtain ⟨_, g2⟩ := h5 rfl
        have hr := h3b rfl
        rw [hr, List.append_nil] at h3
        exact ⟨by rw [g2, hplen], h3, rfl, rfl⟩
      · intro hall
        exact threaded_noFail ix.Client ix.Collection hall new st st1 hth
    | some err0 =>
      refine ⟨⟨none, some ("[Qdrant.Store] Upsert failed: " ++ err0), st1, new⟩, ?_, hth,
        hidx, h2, ⟨rest, h3⟩, ?_, ?_, ?_⟩
      · simp [Store, hdl, hemb, hlen, hpts, newIndexer_batchSize config ix hnew, h1]
      · intro pre x err post heq
        obtain ⟨g1, g2⟩ := h4 pre x err post heq
        simp only [Option.some.injEq] at g2
        exact ⟨g1, rfl, by rw [g2]⟩
      · intro hall
        have := h6 hall
        simp at this
      · intro hall
        exact threaded_noFail ix.Client ix.Collection hall new st st1 hth

/-- The instance of the amended C10 at three documents and a batch size of two. -/
theorem C10_store_batches_witness :
    NewIndexer exConfig = .ok exIndexer ∧ exDocs ≠ [] ∧
    exIndexer.Embedding (exDocs.map (fun d => d.Content)) = .ok [[1, 2], [1, 2], [1, 2]] ∧
    exDocs.map exIndexer.DocumentToPayload = exPayloads.map Except.ok ∧
    exPayloads.map exLib.NewValueMap = exPayloads.map some ∧
    ((effectiveBatchSize exConfig.BatchSize : Nat) : Int) =
      (if exConfig.BatchSize ≤ 0 then 10 else exConfig.BatchSize) ∧
    (expectedPoints exLib exDocs [[1, 2], [1, 2], [1, 2]] exPayloads).map (fun pt => pt.Id)
      = exDocs.map (fun d => d.ID) ∧
    ∃ r, Store exLib exIndexer [] exDocs = .returned r ∧
      Threaded exIndexer.Client exIndexer.Collection [] r.upserts r.client ∧
      (∀ k x, r.upserts[k]? = some x →
        x.1 = ((expectedPoints exLib exDocs [[1, 2], [1, 2], [1, 2]] exPayloads).drop
          (k * effectiveBatchSize exConfig.BatchSize)).take
            (effectiveBatchSize exConfig.BatchSize)) ∧
      (∀ x ∈ r.upserts, x.1 ≠ [] ∧ x.1.length ≤ effectiveBatchSize exConfig.BatchSize) ∧
      (∃ rest, (r.upserts.map (fun x => x.1)).flatten ++ rest
        = expectedPoints exLib exDocs [[1, 2], [1, 2], [1, 2]] exPayloads) ∧
      (∀ pre x err post, r.upserts = pre ++ (x, some err) :: post →
        post = [] ∧ r.ids = none ∧ r.err = some ("[Qdrant.Store] Upsert failed: " ++ err)) ∧
      ((∀ x ∈ r.upserts, x.2 = none) →
        r.upserts.length =
          (exDocs.length + effectiveBatchSize exConfig.BatchSize - 1) /
            effectiveBatchSize exConfig.BatchSize ∧
        (r.upserts.map (fun x => x.1)).flatten
          = expectedPoints exLib exDocs [[1, 2], [1, 2], [1, 2]] exPayloads ∧
        r.ids = some (exDocs.map (fun d => d.ID)) ∧ r.err = none) ∧
      ((∀ st0 batch, (exIndexer.Client st0 exIndexer.Collection batch).2 = none) →
        ∀ x ∈ r.upserts, x.2 = none) :=
  ⟨rfl, by simp [exDocs], rfl, rfl, by decide,
    C10_store_batches exLib exConfig exIndexer rfl [] exDocs (by simp [exDocs])
      [[1, 2], [1, 2], [1, 2]] rfl rfl exPayloads rfl exPayloads (by decide)⟩

end Qdrant
